import Mathlib

/-!
Verification of the GPUSAT dynamic-programming kernels (`src/kernel.cu`).

The device code is shallowly embedded:

* IEEE-754 doubles are modelled as rationals (`ℚ`); the kernels only
  multiply, divide and compare counts, so `ℚ` captures the algebra the
  claims are about.  The `__double_as_longlong` / `__longlong_as_double`
  reinterpretation is a bijection between doubles and 64-bit words, so a
  slot of the solution buffer is modelled directly by its `ℚ` value.
* The trie (`tree` layout) packs, in every 64-bit word, either two 32-bit
  child indices or a double bit pattern.  A word is modelled by the sum
  type `Word`; the all-zero node word coincides with the bit pattern of
  `0.0`, which `asVal` reflects.  Device memory is a total map
  `Nat → Word` (the driver zero-initialises the allocation, and the
  "sufficient node capacity" premise of the claims makes the buffer large
  enough, so a total zero-extended map is faithful).
* `treeSize` is a bump counter that is only ever incremented from a
  non-negative initial value, hence a `Nat`.
* Kernel launches are data parallel; distinct worker lanes write distinct
  solution slots and combine shared scalars with commutative atomics
  (`atomicAdd`, CAS-loop `atomicMax`), so a launch is modelled as a
  sequential fold over the ids of the launch.
* The unbounded scan `while (variables[a] != edgeVariables[b]) a++;` of
  `solveIntroduce_` can run past the end of `variables` (undefined
  behaviour in the CUDA source); the model returns `Option` values, with
  `none` marking exactly those out-of-bounds runs.
-/

/-- Bit `k` of `x`, written `(x >> k) & 1` throughout the CUDA source. -/
def bitAt (x k : Nat) : Nat := (x >>> k) &&& 1

theorem bitAt_eq_div_mod (x k : Nat) : bitAt x k = x / 2 ^ k % 2 := by
  simp [bitAt, Nat.shiftRight_eq_div_pow, Nat.and_one_is_mod]

theorem bitAt_le_one (x k : Nat) : bitAt x k ≤ 1 := by
  rw [bitAt_eq_div_mod]
  omega

theorem bitAt_lt_two (x k : Nat) : bitAt x k < 2 := by
  have := bitAt_le_one x k
  omega

/-- Bits below `n` are unchanged by adding a multiple of `2 ^ n`. -/
theorem bitAt_add_mul_pow (x c n k : Nat) (hk : k < n) :
    bitAt (x + c * 2 ^ n) k = bitAt x k := by
  rw [bitAt_eq_div_mod, bitAt_eq_div_mod]
  have hpow : 2 ^ n = 2 ^ (n - k) * 2 ^ k := by
    rw [← pow_add]
    congr 1
    omega
  have h2 : c * 2 ^ n = c * 2 ^ (n - k) * 2 ^ k := by rw [hpow]; ring
  rw [h2, Nat.add_mul_div_right _ _ (Nat.pos_pow_of_pos k (by norm_num))]
  have hnk : n - k ≠ 0 := by omega
  rcases Nat.exists_eq_succ_of_ne_zero hnk with ⟨m, hm⟩
  have h3 : c * 2 ^ (n - k) = c * 2 ^ m * 2 := by rw [hm, pow_succ]; ring
  rw [h3, Nat.add_mul_mod_self_right]

/-- Decomposing a remainder modulo `2 ^ (n+1)` into the top bit and the rest. -/
theorem mod_pow_succ_decomp (x n : Nat) :
    x % 2 ^ (n + 1) = bitAt x n * 2 ^ n + x % 2 ^ n := by
  rw [bitAt_eq_div_mod]
  rw [Nat.mod_pow_succ]
  ring

theorem bitAt_of_lt (x n : Nat) (h : x < 2 ^ n) : bitAt x n = 0 := by
  rw [bitAt_eq_div_mod, Nat.div_eq_of_lt h]

theorem bitAt_mod_pow (x n k : Nat) (hk : k < n) :
    bitAt (x % 2 ^ n) k = bitAt x k := by
  conv_rhs => rw [← Nat.mod_add_div' x (2 ^ n)]
  rw [bitAt_add_mul_pow _ _ _ _ hk]

/-! ## The trie ("tree") solution-table layout (`kernel.cu`, lines 86–182) -/

/-- One 64-bit word of the trie buffer: either two 32-bit child indices
(lower half = child for bit 0, upper half = child for bit 1), or a value
word holding a double bit pattern lying at depth `numVars`. -/
inductive Word where
  | node (c0 c1 : Nat) : Word
  | val (q : ℚ) : Word
deriving DecidableEq

/-- Reading a word as a double (`__longlong_as_double(tree[nextId])`).
The all-zero node word is the bit pattern of `0.0`; reading a node word
with non-zero halves as a double never happens under the representation
invariant and is mapped to `0`. -/
def asVal : Word → ℚ
  | Word.node _ _ => 0
  | Word.val q => q

/-- Reading one 32-bit half of a word (`((uint*)&tree[nextId])[bit]`).
Reading halves of a value word never happens under the representation
invariant and is mapped to `0`. -/
def getHalf : Word → Nat → Nat
  | Word.node c0 c1, b => if b = 0 then c0 else c1
  | Word.val _, _ => 0

/-- Overwriting one 32-bit half of a node word. The value-word case is the
type-punned region never reached under the representation invariant. -/
def setHalfW : Word → Nat → Nat → Word
  | Word.node c0 c1, b, c => if b = 0 then Word.node c c1 else Word.node c0 c
  | Word.val q, _, _ => Word.val q

/-- Device memory update of half `b` of word `nd`. -/
def setHalfMem (mem : Nat → Word) (nd b c : Nat) : Nat → Word :=
  Function.update mem nd (setHalfW (mem nd) b c)

/-- A trie solution table: the word buffer plus the bump counter
`treeSize`. -/
structure Trie where
  mem : Nat → Word
  size : Nat

/-- Loop body of `getCount` (`kernel.cu` 86–96): from word `nd`, consume
the remaining `m` bits of `id` (most significant first); a zero child
index means "no such assignment" and yields count `0`; the final word is
read as a double. -/
def getCountAux (id : Nat) (mem : Nat → Word) (nd : Nat) : Nat → ℚ
  | 0 => asVal (mem nd)
  | m + 1 =>
    let nxt := getHalf (mem nd) (bitAt id m)
    if nxt = 0 then 0 else getCountAux id mem nxt m

/-- Model of `__device__ double getCount(long id, long *tree, long numVars)`. -/
def getCount (id : Nat) (t : Trie) (numVars : Nat) : ℚ :=
  getCountAux id t.mem 0 numVars

/-- Loop of `setCount` (`kernel.cu` 112–134), sequential semantics: the
state is `(mem, size, nd, val)` where `val` is the index reserved by the
last `atomicAdd` (`0` if none is held).  `atomicCAS(lowVal, 0, val)`
sequentially writes `val` iff the half was `0`. -/
def setCountAux (id : Nat) (v : ℚ) :
    Nat → (Nat → Word) → Nat → Nat → Nat → (Nat → Word) × Nat
  | 0, mem, size, nd, _ => (Function.update mem nd (Word.val v), size)
  | m + 1, mem, size, nd, val =>
    let b := bitAt id m
    let cur := getHalf (mem nd) b
    let size1 := if val = 0 ∧ cur = 0 then size + 1 else size
    let val1 := if val = 0 ∧ cur = 0 then size + 1 else val
    let mem1 := if cur = 0 then setHalfMem mem nd b val1 else mem
    let cur1 := getHalf (mem1 nd) b
    let size2 := if cur1 = val1 ∧ 0 < m then size1 + 1 else size1
    let val2 := if cur1 = val1 ∧ 0 < m then size1 + 1 else val1
    setCountAux id v m mem1 size2 cur1 val2

/-- Model of `__device__ void setCount(long id, long *tree, long numVars,
long *treeSize, double value)`; when `numVars = 0` the counter is bumped
once and the root word receives the value. -/
def setCount (id : Nat) (t : Trie) (numVars : Nat) (v : ℚ) : Trie :=
  let size0 := if numVars = 0 then t.size + 1 else t.size
  let r := setCountAux id v numVars t.mem size0 0 0
  ⟨r.1, r.2⟩

/-- The walk of `getCount` runs into a zero child index at some depth. -/
def reachesZero (id : Nat) (mem : Nat → Word) (nd : Nat) : Nat → Prop
  | 0 => False
  | m + 1 =>
    getHalf (mem nd) (bitAt id m) = 0 ∨
      (getHalf (mem nd) (bitAt id m) ≠ 0 ∧
        reachesZero id mem (getHalf (mem nd) (bitAt id m)) m)

/-- Worker lane of `__global__ void combineTree` (`kernel.cu` 176–182):
fetch the count of `id + startId` from the old trie and, if positive,
insert it into the receiving trie. -/
def combineTreeKernel (numVars : Nat) (t : Trie) (solutions_old : Nat → Word)
    (startId id : Nat) : Trie :=
  let v := getCountAux (id + startId) solutions_old 0 numVars
  if 0 < v then setCount (id + startId) t numVars v else t

/-- A `combineTree` launch: one worker lane per assignment of the old
trie's range.  Lanes allocate through the shared `treeSize` counter and
hit distinct leaves, so the launch is modelled as a sequential fold. -/
def combineTreeRun (numVars : Nat) (t : Trie) (solutions_old : Nat → Word)
    (startId : Nat) : Trie :=
  (List.range (2 ^ numVars)).foldl
    (fun acc i => combineTreeKernel numVars acc solutions_old startId i) t

/-! ## Representation invariant for tries -/

/-- Memory beyond the bump counter is still zero-initialised. -/
def zeroedBeyond (mem : Nat → Word) (size : Nat) : Prop :=
  ∀ j, size < j → mem j = Word.node 0 0

/-- Predicate `TrieRepr mem size m nd f S` : the word at `nd` roots a well-formed trie of
depth `m` over memory `mem` whose node indices form the set `S`, all of
them at most `size`, children strictly above their parent, and whose count
for every assignment `i < 2 ^ m` is `f i` (a zero child index denotes
count `0`).  This is the structure `setCount` builds from a
zero-initialised buffer. -/
def TrieRepr (mem : Nat → Word) (size : Nat) : Nat → Nat → (Nat → ℚ) → Finset ℕ → Prop
  | 0, nd, f, S =>
      S = {nd} ∧ nd ≤ size ∧
      (mem nd = Word.node 0 0 ∨ ∃ q, mem nd = Word.val q) ∧
      f 0 = asVal (mem nd)
  | m + 1, nd, f, S => ∃ c0 c1 S0 S1,
      mem nd = Word.node c0 c1 ∧ nd ≤ size ∧
      S = insert nd (S0 ∪ S1) ∧ Disjoint S0 S1 ∧
      (∀ j ∈ S0 ∪ S1, nd < j) ∧
      (if c0 = 0 then S0 = ∅ ∧ ∀ i < 2 ^ m, f i = 0
       else TrieRepr mem size m c0 (fun i => f i) S0) ∧
      (if c1 = 0 then S1 = ∅ ∧ ∀ i < 2 ^ m, f (2 ^ m + i) = 0
       else TrieRepr mem size m c1 (fun i => f (2 ^ m + i)) S1)

theorem TrieRepr_mem_le_size (mem : Nat → Word) (size : Nat) :
    ∀ m nd f S, TrieRepr mem size m nd f S → ∀ j ∈ S, nd ≤ j ∧ j ≤ size := by
  intro m
  induction m with
  | zero =>
    intro nd f S h j hj
    obtain ⟨hS, hnd, -, -⟩ := h
    subst hS
    simp at hj
    omega
  | succ m ih =>
    intro nd f S h j hj
    obtain ⟨c0, c1, S0, S1, hw, hnd, hS, hdisj, hlt, h0, h1⟩ := h
    subst hS
    rcases Finset.mem_insert.1 hj with rfl | hj'
    · omega
    rcases Finset.mem_union.1 hj' with hj0 | hj1
    · have hc0 : c0 ≠ 0 := by
        intro hc
        rw [if_pos hc] at h0
        rw [h0.1] at hj0
        exact absurd hj0 (Finset.not_mem_empty j)
      rw [if_neg hc0] at h0
      have := ih c0 _ S0 h0 j hj0
      have := hlt j (Finset.mem_union_left _ hj0)
      omega
    · have hc1 : c1 ≠ 0 := by
        intro hc
        rw [if_pos hc] at h1
        rw [h1.1] at hj1
        exact absurd hj1 (Finset.not_mem_empty j)
      rw [if_neg hc1] at h1
      have := ih c1 _ S1 h1 j hj1
      have := hlt j (Finset.mem_union_right _ hj1)
      omega

/-- Stability: `TrieRepr` only reads the memory on `S` and only compares against `size`
upward, so it is stable under memory changes off `S` and size growth. -/
theorem TrieRepr_mono (mem mem' : Nat → Word) (size size' : Nat) :
    ∀ m nd f S, TrieRepr mem size m nd f S → (∀ j ∈ S, mem' j = mem j) →
      size ≤ size' → TrieRepr mem' size' m nd f S := by
  intro m
  induction m with
  | zero =>
    intro nd f S h hmem hsz
    obtain ⟨hS, hnd, hw, hv⟩ := h
    subst hS
    have he : mem' nd = mem nd := hmem nd (by simp)
    exact ⟨rfl, by omega, by rw [he]; exact hw, by rw [he]; exact hv⟩
  | succ m ih =>
    intro nd f S h hmem hsz
    obtain ⟨c0, c1, S0, S1, hw, hnd, hS, hdisj, hlt, h0, h1⟩ := h
    subst hS
    refine ⟨c0, c1, S0, S1, ?_, by omega, rfl, hdisj, hlt, ?_, ?_⟩
    · rw [hmem nd (by simp)]; exact hw
    · by_cases hc0 : c0 = 0
      · rwa [if_pos hc0] at h0 ⊢
      · rw [if_neg hc0] at h0 ⊢
        exact ih c0 _ S0 h0
          (fun j hj => hmem j (by simp [Finset.mem_union_left _ hj])) hsz
    · by_cases hc1 : c1 = 0
      · rwa [if_pos hc1] at h1 ⊢
      · rw [if_neg hc1] at h1 ⊢
        exact ih c1 _ S1 h1
          (fun j hj => hmem j (by simp [Finset.mem_union_right _ hj])) hsz

/-- Congruence: `TrieRepr` only evaluates the count function below `2 ^ m`. -/
theorem TrieRepr_congr_f (mem : Nat → Word) (size : Nat) :
    ∀ m nd f g S, TrieRepr mem size m nd f S → (∀ i < 2 ^ m, g i = f i) →
      TrieRepr mem size m nd g S := by
  intro m
  induction m with
  | zero =>
    intro nd f g S h hfg
    obtain ⟨hS, hnd, hw, hv⟩ := h
    exact ⟨hS, hnd, hw, by rw [hfg 0 (by norm_num)]; exact hv⟩
  | succ m ih =>
    intro nd f g S h hfg
    obtain ⟨c0, c1, S0, S1, hw, hnd, hS, hdisj, hlt, h0, h1⟩ := h
    refine ⟨c0, c1, S0, S1, hw, hnd, hS, hdisj, hlt, ?_, ?_⟩
    · by_cases hc0 : c0 = 0
      · rw [if_pos hc0] at h0 ⊢
        refine ⟨h0.1, fun i hi => ?_⟩
        rw [hfg i (by have := Nat.pow_lt_pow_succ (a := 2) (by norm_num) (n := m); omega)]
        exact h0.2 i hi
      · rw [if_neg hc0] at h0 ⊢
        exact ih c0 _ _ S0 h0 (fun i hi =>
          hfg i (by have := Nat.pow_lt_pow_succ (a := 2) (by norm_num) (n := m); omega))
    · by_cases hc1 : c1 = 0
      · rw [if_pos hc1] at h1 ⊢
        refine ⟨h1.1, fun i hi => ?_⟩
        rw [hfg (2 ^ m + i) (by rw [pow_succ]; omega)]
        exact h1.2 i hi
      · rw [if_neg hc1] at h1 ⊢
        exact ih c1 _ _ S1 h1 (fun i hi => hfg (2 ^ m + i) (by rw [pow_succ]; omega))

/-- The all-zero buffer roots an empty trie of any depth at the root. -/
theorem TrieRepr_empty (n : Nat) :
    TrieRepr (fun _ => Word.node 0 0) 0 n 0 (fun _ => 0) {0} := by
  induction n with
  | zero => exact ⟨rfl, le_refl 0, Or.inl rfl, rfl⟩
  | succ n ih =>
    exact ⟨0, 0, ∅, ∅, rfl, le_refl 0, by simp, Finset.disjoint_empty_left _,
      by simp, by simp, by simp⟩

theorem getHalf_setHalfW (c0 c1 b c : Nat) :
    getHalf (setHalfW (Word.node c0 c1) b c) b = c := by
  by_cases hb : b = 0 <;> simp [setHalfW, getHalf, hb]

theorem setHalfMem_same (mem : Nat → Word) (nd b c : Nat) :
    setHalfMem mem nd b c nd = setHalfW (mem nd) b c := by
  simp [setHalfMem]

theorem setHalfMem_other (mem : Nat → Word) (nd b c j : Nat) (h : j ≠ nd) :
    setHalfMem mem nd b c j = mem j := by
  simp [setHalfMem, Function.update_noteq h]

theorem bitAt_high (i m : Nat) (h1 : 2 ^ m ≤ i) (h2 : i < 2 ^ (m + 1)) :
    bitAt i m = 1 := by
  rw [bitAt_eq_div_mod]
  rw [pow_succ] at h2
  have hdiv : i / 2 ^ m = 1 := by
    have hpos : 0 < 2 ^ m := Nat.pos_pow_of_pos m (by norm_num)
    have := Nat.div_lt_iff_lt_mul (k := 2 ^ m) (x := i) (y := 2) hpos
    have := Nat.le_div_iff_mul_le (k := 2 ^ m) (x := 1) (y := i) hpos
    omega
  rw [hdiv]

/-- The `getCount` walk of depth `m` only consults bits `m-1 ... 0`. -/
theorem getCountAux_congr_bits (mem : Nat → Word) :
    ∀ m nd id id', (∀ k, k < m → bitAt id k = bitAt id' k) →
      getCountAux id mem nd m = getCountAux id' mem nd m := by
  intro m
  induction m with
  | zero => intro nd id id' _; rfl
  | succ m ih =>
    intro nd id id' hbits
    simp only [getCountAux]
    rw [hbits m (by omega)]
    by_cases hz : getHalf (mem nd) (bitAt id' m) = 0
    · rw [hz]
      simp
    · rw [if_neg hz, if_neg hz]
      exact ih _ id id' (fun k hk => hbits k (by omega))

/-- Correctness of `getCount` on a well-formed trie: it returns the represented
count of every assignment of the bag. -/
theorem getCountAux_of_repr (mem : Nat → Word) (size : Nat) :
    ∀ m nd f S, TrieRepr mem size m nd f S →
      ∀ id, id < 2 ^ m → getCountAux id mem nd m = f id := by
  intro m
  induction m with
  | zero =>
    intro nd f S h id hid
    have hid0 : id = 0 := by omega
    subst hid0
    simp only [getCountAux]
    exact h.2.2.2.symm
  | succ m ih =>
    intro nd f S h id hid
    obtain ⟨c0, c1, S0, S1, hw, hnd, hS, hdisj, hlt, h0, h1⟩ := h
    by_cases hb : id < 2 ^ m
    · have hbit := bitAt_of_lt id m hb
      simp only [getCountAux, hw, getHalf, hbit, reduceIte]
      by_cases hc0 : c0 = 0
      · rw [if_pos hc0]
        rw [if_pos hc0] at h0
        exact (h0.2 id hb).symm
      · rw [if_neg hc0]
        rw [if_neg hc0] at h0
        exact ih c0 _ S0 h0 id hb
    · have hbit : bitAt id m = 1 := bitAt_high id m (by omega) hid
      simp only [getCountAux, hw, getHalf, hbit, reduceIte]
      rw [if_neg (by norm_num : ¬(1 : Nat) = 0)]
      have hdecomp : id = 2 ^ m + (id - 2 ^ m) := by omega
      have hlt' : id - 2 ^ m < 2 ^ m := by
        rw [pow_succ] at hid
        omega
      by_cases hc1 : c1 = 0
      · rw [if_pos hc1]
        rw [if_pos hc1] at h1
        have := h1.2 (id - 2 ^ m) hlt'
        rw [← hdecomp] at this
        exact this.symm
      · rw [if_neg hc1]
        rw [if_neg hc1] at h1
        have heq : getCountAux id mem c1 m = getCountAux (id - 2 ^ m) mem c1 m := by
          refine getCountAux_congr_bits mem m c1 id (id - 2 ^ m) (fun k hk => ?_)
          have hsplit : id = (id - 2 ^ m) + 1 * 2 ^ m := by omega
          conv_lhs => rw [hsplit]
          rw [bitAt_add_mul_pow _ _ _ _ hk]
        have := ih c1 _ S1 h1 (id - 2 ^ m) hlt'
        rw [heq, this, ← hdecomp]

/-- A `getCount` walk that meets a zero child index yields count `0`. -/
theorem getCountAux_of_reachesZero (id : Nat) (mem : Nat → Word) :
    ∀ m nd, reachesZero id mem nd m → getCountAux id mem nd m = 0 := by
  intro m
  induction m with
  | zero => intro nd h; exact h.elim
  | succ m ih =>
    intro nd h
    simp only [getCountAux]
    rcases h with hz | ⟨hnz, hrec⟩
    · rw [hz]
      simp
    · rw [if_neg hnz]
      exact ih _ hrec

/-- Step of `setCount` through an existing child (sequentially, the CAS is
a no-op and no slot is reserved). -/
theorem setCountAux_step_existing (id : Nat) (v : ℚ) (m : Nat) (mem : Nat → Word)
    (size nd : Nat) (hne : getHalf (mem nd) (bitAt id m) ≠ 0) :
    setCountAux id v (m + 1) mem size nd 0 =
      setCountAux id v m mem size (getHalf (mem nd) (bitAt id m)) 0 := by
  simp [setCountAux, hne, Ne.symm hne]

/-- Step of `setCount` into a missing child while holding no reserved slot:
a fresh index `size + 1` is reserved and written by the CAS, and (unless at
the last level) the next slot is pre-reserved. -/
theorem setCountAux_step_fresh (id : Nat) (v : ℚ) (m : Nat) (mem : Nat → Word)
    (size nd c0 c1 : Nat) (hw : mem nd = Word.node c0 c1)
    (hcur : getHalf (mem nd) (bitAt id m) = 0) :
    setCountAux id v (m + 1) mem size nd 0 =
      setCountAux id v m (setHalfMem mem nd (bitAt id m) (size + 1))
        (if 0 < m then size + 2 else size + 1) (size + 1)
        (if 0 < m then size + 2 else size + 1) := by
  have hcur1 : getHalf (setHalfMem mem nd (bitAt id m) (size + 1) nd) (bitAt id m)
      = size + 1 := by
    rw [setHalfMem_same, hw, getHalf_setHalfW]
  by_cases hm : 0 < m
  · simp [setCountAux, hcur, hcur1, hm, show size + 1 + 1 = size + 2 from rfl]
  · simp [setCountAux, hcur, hcur1, hm]

/-- Step of `setCount` inside a freshly allocated branch: the current word
is zero, the held slot `val` is written, and the walk continues into it. -/
theorem setCountAux_step_inner (id : Nat) (v : ℚ) (m : Nat) (mem : Nat → Word)
    (size nd val : Nat) (hw : mem nd = Word.node 0 0) (hval : val ≠ 0) :
    setCountAux id v (m + 1) mem size nd val =
      setCountAux id v m (setHalfMem mem nd (bitAt id m) val)
        (if 0 < m then size + 1 else size) val
        (if 0 < m then size + 1 else val) := by
  have hcur : getHalf (mem nd) (bitAt id m) = 0 := by
    rw [hw]
    by_cases hb : bitAt id m = 0 <;> simp [getHalf, hb]
  have hcur1 : getHalf (setHalfMem mem nd (bitAt id m) val nd) (bitAt id m)
      = val := by
    rw [setHalfMem_same, hw, getHalf_setHalfW]
  by_cases hm : 0 < m
  · simp [setCountAux, hcur, hcur1, hval, hm]
  · simp [setCountAux, hcur, hcur1, hval, hm]

/-- Running `setCount` over zero-initialised memory builds a single fresh
path `nd, nd+1, …, nd+m` holding exactly the inserted assignment. -/
theorem setCountAux_fresh (id : Nat) (v : ℚ) :
    ∀ m nd mem val, (∀ j, nd ≤ j → mem j = Word.node 0 0) →
      (0 < m → val = nd + 1) →
      ∃ mem', setCountAux id v m mem (if 0 < m then nd + 1 else nd) nd val
          = (mem', nd + m) ∧
        TrieRepr mem' (nd + m) m nd (fun i => if i = id % 2 ^ m then v else 0)
          (Finset.Icc nd (nd + m)) ∧
        ∀ j, j ∉ Finset.Icc nd (nd + m) → mem' j = mem j := by
  intro m
  induction m with
  | zero =>
    intro nd mem val hz _
    refine ⟨Function.update mem nd (Word.val v), by simp [setCountAux], ?_, ?_⟩
    · refine ⟨by simp, le_refl _, Or.inr ⟨v, by simp⟩, ?_⟩
      simp [asVal, Nat.mod_one]
    · intro j hj
      have hjne : j ≠ nd := by
        intro hj'
        exact hj (by simp [hj', Finset.mem_Icc])
      simp [Function.update_noteq hjne]
  | succ m ih =>
    intro nd mem val hz hval
    have hvs : val = nd + 1 := hval (Nat.succ_pos m)
    subst hvs
    have hw : mem nd = Word.node 0 0 := hz nd (le_refl nd)
    rw [if_pos (Nat.succ_pos m)]
    rw [setCountAux_step_inner id v m mem (nd + 1) nd (nd + 1) hw (by omega)]
    have hz1 : ∀ j, nd + 1 ≤ j →
        setHalfMem mem nd (bitAt id m) (nd + 1) j = Word.node 0 0 := by
      intro j hj
      rw [setHalfMem_other mem nd _ (nd + 1) j (by omega)]
      exact hz j (by omega)
    obtain ⟨mem2, heq, hrepr, hframe⟩ :=
      ih (nd + 1) (setHalfMem mem nd (bitAt id m) (nd + 1))
        (if 0 < m then nd + 2 else nd + 1) hz1 (fun hm => by rw [if_pos hm])
    have harg1 : (if 0 < m then nd + 1 + 1 else nd + 1)
        = (if 0 < m then nd + 2 else nd + 1) := by
      by_cases hm : 0 < m <;> simp [hm]
    rw [harg1] at heq
    have hnd2 : mem2 nd = setHalfW (Word.node 0 0) (bitAt id m) (nd + 1) := by
      rw [hframe nd (by simp only [Finset.mem_Icc, not_and, not_le]; omega),
        setHalfMem_same, hw]
    have hSeq : Finset.Icc nd (nd + (m + 1))
        = insert nd (Finset.Icc (nd + 1) (nd + 1 + m) ∪ ∅) := by
      ext j
      simp only [Finset.mem_Icc, Finset.mem_insert, Finset.mem_union,
        Finset.not_mem_empty, or_false]
      omega
    have hrepr' : TrieRepr mem2 (nd + (m + 1)) m (nd + 1)
        (fun i => if i = id % 2 ^ m then v else 0)
        (Finset.Icc (nd + 1) (nd + 1 + m)) :=
      TrieRepr_mono mem2 mem2 (nd + 1 + m) (nd + (m + 1)) m (nd + 1) _ _
        hrepr (fun j _ => rfl) (by omega)
    have hmodlt : id % 2 ^ m < 2 ^ m :=
      Nat.mod_lt _ (Nat.pos_pow_of_pos m (by norm_num))
    have hframe' : ∀ j, j ∉ Finset.Icc nd (nd + (m + 1)) → mem2 j = mem j := by
      intro j hj
      simp only [Finset.mem_Icc, not_and, not_le] at hj
      have hj1 : j ∉ Finset.Icc (nd + 1) (nd + 1 + m) := by
        simp only [Finset.mem_Icc, not_and, not_le]
        omega
      rw [hframe j hj1]
      by_cases hjn : j = nd
      · subst hjn
        omega
      · exact setHalfMem_other mem nd _ (nd + 1) j hjn
    have hpair : ∀ q : (Nat → Word) × Nat, q = (mem2, nd + 1 + m) →
        q = (mem2, nd + (m + 1)) := by
      intro q hq
      rw [hq]
      congr 1
      omega
    have hbcases : bitAt id m = 0 ∨ bitAt id m = 1 := by
      have := bitAt_le_one id m
      omega
    have hmod := mod_pow_succ_decomp id m
    rcases hbcases with hb | hb
    · -- bit 0 : the fresh path hangs on the low child
      have hmod0 : id % 2 ^ (m + 1) = id % 2 ^ m := by
        rw [hmod, hb]
        ring
      refine ⟨mem2, hpair _ heq, ?_, hframe'⟩
      refine ⟨nd + 1, 0, Finset.Icc (nd + 1) (nd + 1 + m), ∅, ?_, by omega, hSeq,
        Finset.disjoint_empty_right _, ?_, ?_, ?_⟩
      · rw [hnd2, hb]
        simp [setHalfW]
      · intro j hj
        simp only [Finset.mem_union, Finset.mem_Icc, Finset.not_mem_empty,
          or_false] at hj
        omega
      · rw [if_neg (by omega : ¬nd + 1 = 0)]
        refine TrieRepr_congr_f _ _ _ _ _ _ _ hrepr' (fun i _ => ?_)
        rw [hmod0]
      · rw [if_pos rfl]
        refine ⟨rfl, fun i hi => ?_⟩
        show (if 2 ^ m + i = id % 2 ^ (m + 1) then v else 0) = 0
        rw [hmod0, if_neg (by omega)]
    · -- bit 1 : the fresh path hangs on the high child
      have hmod1 : id % 2 ^ (m + 1) = 2 ^ m + id % 2 ^ m := by
        rw [hmod, hb]
        ring
      refine ⟨mem2, hpair _ heq, ?_, hframe'⟩
      refine ⟨0, nd + 1, ∅, Finset.Icc (nd + 1) (nd + 1 + m), ?_, by omega,
        by rw [hSeq]; congr 1; rw [Finset.union_comm], Finset.disjoint_empty_left _,
        ?_, ?_, ?_⟩
      · rw [hnd2, hb]
        simp [setHalfW]
      · intro j hj
        simp only [Finset.mem_union, Finset.mem_Icc, Finset.not_mem_empty,
          false_or] at hj
        omega
      · rw [if_pos rfl]
        refine ⟨rfl, fun i hi => ?_⟩
        show (if i = id % 2 ^ (m + 1) then v else 0) = 0
        rw [hmod1, if_neg (by omega)]
      · rw [if_neg (by omega : ¬nd + 1 = 0)]
        refine TrieRepr_congr_f _ _ _ _ _ _ _ hrepr' (fun i hi => ?_)
        show (if 2 ^ m + i = id % 2 ^ (m + 1) then v else 0)
            = (if i = id % 2 ^ m then v else 0)
        rw [hmod1]
        by_cases hi' : i = id % 2 ^ m
        · rw [if_pos (by omega), if_pos hi']
        · rw [if_neg (by omega), if_neg hi']

/-- Main correctness of sequential `setCount` on a well-formed trie with
sufficient capacity: the insertion yields a well-formed trie whose count
function is updated at `id` (mod the bag space) and unchanged elsewhere,
touching only old nodes and freshly allocated indices. -/
theorem setCountAux_spec (id : Nat) (v : ℚ) :
    ∀ m mem size nd f S, TrieRepr mem size m nd f S → zeroedBeyond mem size →
      ∃ mem' size' S',
        setCountAux id v m mem size nd 0 = (mem', size') ∧
        TrieRepr mem' size' m nd (fun i => if i = id % 2 ^ m then v else f i) S' ∧
        S ⊆ S' ∧ (∀ j ∈ S', j ∈ S ∨ (size < j ∧ j ≤ size')) ∧
        size ≤ size' ∧ zeroedBeyond mem' size' ∧
        (∀ j, j ∉ S' → mem' j = mem j) := by
  intro m
  induction m with
  | zero =>
    intro mem size nd f S h hzb
    obtain ⟨hS, hnd, _, _⟩ := h
    refine ⟨Function.update mem nd (Word.val v), size, S, by simp [setCountAux], ?_,
      Finset.Subset.refl S, fun j hj => Or.inl hj, le_refl size, ?_, ?_⟩
    · subst hS
      refine ⟨rfl, hnd, Or.inr ⟨v, by simp⟩, ?_⟩
      simp [asVal, Nat.mod_one]
    · intro j hj
      have : j ≠ nd := by omega
      rw [Function.update_noteq this]
      exact hzb j hj
    · intro j hj
      subst hS
      have : j ≠ nd := fun h' => hj (by simp [h'])
      rw [Function.update_noteq this]
  | succ m ih =>
    intro mem size nd f S h hzb
    obtain ⟨c0, c1, S0, S1, hw, hnd, hS, hdisj, hlt, h0, h1⟩ := h
    have hmod := mod_pow_succ_decomp id m
    have hmodlt : id % 2 ^ m < 2 ^ m :=
      Nat.mod_lt _ (Nat.pos_pow_of_pos m (by norm_num))
    have hbcases : bitAt id m = 0 ∨ bitAt id m = 1 := by
      have := bitAt_le_one id m
      omega
    have hS0le : ∀ j ∈ S0, j ≤ size := by
      intro j hj
      by_cases hc : c0 = 0
      · rw [if_pos hc] at h0
        rw [h0.1] at hj
        exact absurd hj (Finset.not_mem_empty j)
      · rw [if_neg hc] at h0
        exact (TrieRepr_mem_le_size mem size m c0 _ S0 h0 j hj).2
    have hS1le : ∀ j ∈ S1, j ≤ size := by
      intro j hj
      by_cases hc : c1 = 0
      · rw [if_pos hc] at h1
        rw [h1.1] at hj
        exact absurd hj (Finset.not_mem_empty j)
      · rw [if_neg hc] at h1
        exact (TrieRepr_mem_le_size mem size m c1 _ S1 h1 j hj).2
    rcases hbcases with hb | hb
    · -- low bit : the walk goes through child `c0`
      have hmod0 : id % 2 ^ (m + 1) = id % 2 ^ m := by rw [hmod, hb]; ring
      have hcur : getHalf (mem nd) (bitAt id m) = c0 := by
        rw [hw, hb]
        simp [getHalf]
      by_cases hc0 : c0 = 0
      · -- missing child : build a fresh path for the low branch
        subst hc0
        rw [if_pos rfl] at h0
        obtain ⟨hS0e, hf0⟩ := h0
        have hz1 : ∀ j, size + 1 ≤ j →
            setHalfMem mem nd (bitAt id m) (size + 1) j = Word.node 0 0 := by
          intro j hj
          rw [setHalfMem_other mem nd _ (size + 1) j (by omega)]
          exact hzb j (by omega)
        obtain ⟨mem2, heq2, hrepr2, hframe2⟩ :=
          setCountAux_fresh id v m (size + 1)
            (setHalfMem mem nd (bitAt id m) (size + 1))
            (if 0 < m then size + 2 else size + 1) hz1 (fun hm => by rw [if_pos hm])
        have harg : (if 0 < m then size + 1 + 1 else size + 1)
            = (if 0 < m then size + 2 else size + 1) := by
          by_cases hm : 0 < m <;> simp [hm]
        rw [harg] at heq2
        have hstep := setCountAux_step_fresh id v m mem size nd 0 c1 hw hcur
        have hndIcc : nd ∉ Finset.Icc (size + 1) (size + 1 + m) := by
          simp only [Finset.mem_Icc, not_and, not_le]
          omega
        have hnd2 : mem2 nd = Word.node (size + 1) c1 := by
          rw [hframe2 nd hndIcc, setHalfMem_same, hw, hb]
          simp [setHalfW]
        refine ⟨mem2, size + 1 + m,
          insert nd (Finset.Icc (size + 1) (size + 1 + m) ∪ S1),
          hstep.trans heq2, ?_, ?_, ?_, by omega, ?_, ?_⟩
        · refine ⟨size + 1, c1, Finset.Icc (size + 1) (size + 1 + m), S1, hnd2,
            by omega, rfl, ?_, ?_, ?_, ?_⟩
          · rw [Finset.disjoint_left]
            intro j hj hj1
            have := hS1le j hj1
            simp only [Finset.mem_Icc] at hj
            omega
          · intro j hj
            rcases Finset.mem_union.1 hj with hj' | hj'
            · simp only [Finset.mem_Icc] at hj'
              omega
            · exact hlt j (Finset.mem_union_right _ hj')
          · rw [if_neg (by omega : ¬size + 1 = 0)]
            refine TrieRepr_congr_f _ _ _ _ _ _ _ hrepr2 (fun i hi => ?_)
            show (if i = id % 2 ^ (m + 1) then v else f i)
                = (if i = id % 2 ^ m then v else 0)
            rw [hmod0]
            by_cases hi' : i = id % 2 ^ m
            · rw [if_pos hi', if_pos hi']
            · rw [if_neg hi', if_neg hi']
              exact hf0 i hi
          · by_cases hc1 : c1 = 0
            · rw [if_pos hc1]
              rw [if_pos hc1] at h1
              refine ⟨h1.1, fun i hi => ?_⟩
              show (if 2 ^ m + i = id % 2 ^ (m + 1) then v else f (2 ^ m + i)) = 0
              rw [hmod0, if_neg (by omega)]
              exact h1.2 i hi
            · rw [if_neg hc1]
              rw [if_neg hc1] at h1
              have hp : TrieRepr mem2 (size + 1 + m) m c1
                  (fun i => f (2 ^ m + i)) S1 := by
                refine TrieRepr_mono mem mem2 size (size + 1 + m) m c1 _ S1 h1
                  (fun j hj => ?_) (by omega)
                have hjI : j ∉ Finset.Icc (size + 1) (size + 1 + m) := by
                  simp only [Finset.mem_Icc, not_and, not_le]
                  have := hS1le j hj
                  omega
                rw [hframe2 j hjI]
                exact setHalfMem_other mem nd _ (size + 1) j
                  (by have := hlt j (Finset.mem_union_right _ hj); omega)
              refine TrieRepr_congr_f _ _ _ _ _ _ _ hp (fun i hi => ?_)
              show (if 2 ^ m + i = id % 2 ^ (m + 1) then v else f (2 ^ m + i))
                  = f (2 ^ m + i)
              rw [hmod0, if_neg (by omega)]
        · subst hS
          intro j hj
          rcases Finset.mem_insert.1 hj with rfl | hj'
          · exact Finset.mem_insert_self j _
          · rcases Finset.mem_union.1 hj' with hj0 | hj1
            · rw [hS0e] at hj0
              exact absurd hj0 (Finset.not_mem_empty j)
            · exact Finset.mem_insert_of_mem (Finset.mem_union_right _ hj1)
        · intro j hj
          rcases Finset.mem_insert.1 hj with rfl | hj'
          · exact Or.inl (by rw [hS]; exact Finset.mem_insert_self j _)
          · rcases Finset.mem_union.1 hj' with hjI | hj1
            · simp only [Finset.mem_Icc] at hjI
              exact Or.inr ⟨by omega, by omega⟩
            · exact Or.inl (by
                rw [hS]
                exact Finset.mem_insert_of_mem (Finset.mem_union_right _ hj1))
        · intro j hj
          have hjI : j ∉ Finset.Icc (size + 1) (size + 1 + m) := by
            simp only [Finset.mem_Icc, not_and, not_le]
            omega
          rw [hframe2 j hjI, setHalfMem_other mem nd _ (size + 1) j (by omega)]
          exact hzb j (by omega)
        · intro j hj
          have hjn : j ≠ nd := fun h' => hj (by rw [h']; exact Finset.mem_insert_self _ _)
          have hjI : j ∉ Finset.Icc (size + 1) (size + 1 + m) := fun h' =>
            hj (Finset.mem_insert_of_mem (Finset.mem_union_left _ h'))
          rw [hframe2 j hjI]
          exact setHalfMem_other mem nd _ (size + 1) j hjn
      · -- existing child : recurse through it
        rw [if_neg hc0] at h0
        have hstep := setCountAux_step_existing id v m mem size nd
          (by rw [hcur]; exact hc0)
        rw [hcur] at hstep
        obtain ⟨mem', size', S0', heq, hrepr0, hsub0, hchar0, hsz, hzb', hframe0⟩ :=
          ih mem size c0 _ S0 h0 hzb
        have hndS0' : nd ∉ S0' := by
          intro hmem'
          rcases hchar0 nd hmem' with h' | h'
          · have := hlt nd (Finset.mem_union_left _ h')
            omega
          · omega
        have hmemnd : mem' nd = mem nd := hframe0 nd hndS0'
        have hS1mem : ∀ j ∈ S1, mem' j = mem j := by
          intro j hj
          refine hframe0 j (fun hj' => ?_)
          rcases hchar0 j hj' with h' | h'
          · exact Finset.disjoint_left.1 hdisj h' hj
          · have := hS1le j hj
            omega
        refine ⟨mem', size', insert nd (S0' ∪ S1), hstep.trans heq, ?_, ?_, ?_, hsz,
          hzb', ?_⟩
        · refine ⟨c0, c1, S0', S1, by rw [hmemnd, hw], by omega, rfl, ?_, ?_, ?_, ?_⟩
          · rw [Finset.disjoint_left]
            intro j hj hj1
            rcases hchar0 j hj with h' | h'
            · exact Finset.disjoint_left.1 hdisj h' hj1
            · have := hS1le j hj1
              omega
          · intro j hj
            rcases Finset.mem_union.1 hj with hj' | hj'
            · rcases hchar0 j hj' with h' | h'
              · exact hlt j (Finset.mem_union_left _ h')
              · omega
            · exact hlt j (Finset.mem_union_right _ hj')
          · rw [if_neg hc0]
            refine TrieRepr_congr_f _ _ _ _ _ _ _ hrepr0 (fun i hi => ?_)
            show (if i = id % 2 ^ (m + 1) then v else f i)
                = (if i = id % 2 ^ m then v else f i)
            rw [hmod0]
          · by_cases hc1 : c1 = 0
            · rw [if_pos hc1]
              rw [if_pos hc1] at h1
              refine ⟨h1.1, fun i hi => ?_⟩
              show (if 2 ^ m + i = id % 2 ^ (m + 1) then v else f (2 ^ m + i)) = 0
              rw [hmod0, if_neg (by omega)]
              exact h1.2 i hi
            · rw [if_neg hc1]
              rw [if_neg hc1] at h1
              have hp := TrieRepr_mono mem mem' size size' m c1 _ S1 h1 hS1mem hsz
              refine TrieRepr_congr_f _ _ _ _ _ _ _ hp (fun i hi => ?_)
              show (if 2 ^ m + i = id % 2 ^ (m + 1) then v else f (2 ^ m + i))
                  = f (2 ^ m + i)
              rw [hmod0, if_neg (by omega)]
        · subst hS
          intro j hj
          rcases Finset.mem_insert.1 hj with rfl | hj'
          · exact Finset.mem_insert_self j _
          · rcases Finset.mem_union.1 hj' with hj0 | hj1
            · exact Finset.mem_insert_of_mem (Finset.mem_union_left _ (hsub0 hj0))
            · exact Finset.mem_insert_of_mem (Finset.mem_union_right _ hj1)
        · intro j hj
          rcases Finset.mem_insert.1 hj with rfl | hj'
          · exact Or.inl (by rw [hS]; exact Finset.mem_insert_self j _)
          · rcases Finset.mem_union.1 hj' with hj0 | hj1
            · rcases hchar0 j hj0 with h' | h'
              · exact Or.inl (by
                  rw [hS]
                  exact Finset.mem_insert_of_mem (Finset.mem_union_left _ h'))
              · exact Or.inr h'
            · exact Or.inl (by
                rw [hS]
                exact Finset.mem_insert_of_mem (Finset.mem_union_right _ hj1))
        · intro j hj
          refine hframe0 j (fun hj' => hj ?_)
          exact Finset.mem_insert_of_mem (Finset.mem_union_left _ hj')
    · -- high bit : the walk goes through child `c1`
      have hmod1 : id % 2 ^ (m + 1) = 2 ^ m + id % 2 ^ m := by rw [hmod, hb]; ring
      have hcur : getHalf (mem nd) (bitAt id m) = c1 := by
        rw [hw, hb]
        simp [getHalf]
      by_cases hc1 : c1 = 0
      · -- missing child : build a fresh path for the high branch
        subst hc1
        rw [if_pos rfl] at h1
        obtain ⟨hS1e, hf1⟩ := h1
        have hz1 : ∀ j, size + 1 ≤ j →
            setHalfMem mem nd (bitAt id m) (size + 1) j = Word.node 0 0 := by
          intro j hj
          rw [setHalfMem_other mem nd _ (size + 1) j (by omega)]
          exact hzb j (by omega)
        obtain ⟨mem2, heq2, hrepr2, hframe2⟩ :=
          setCountAux_fresh id v m (size + 1)
            (setHalfMem mem nd (bitAt id m) (size + 1))
            (if 0 < m then size + 2 else size + 1) hz1 (fun hm => by rw [if_pos hm])
        have harg : (if 0 < m then size + 1 + 1 else size + 1)
            = (if 0 < m then size + 2 else size + 1) := by
          by_cases hm : 0 < m <;> simp [hm]
        rw [harg] at heq2
        have hstep := setCountAux_step_fresh id v m mem size nd c0 0 hw hcur
        have hndIcc : nd ∉ Finset.Icc (size + 1) (size + 1 + m) := by
          simp only [Finset.mem_Icc, not_and, not_le]
          omega
        have hnd2 : mem2 nd = Word.node c0 (size + 1) := by
          rw [hframe2 nd hndIcc, setHalfMem_same, hw, hb]
          simp [setHalfW]
        refine ⟨mem2, size + 1 + m,
          insert nd (S0 ∪ Finset.Icc (size + 1) (size + 1 + m)),
          hstep.trans heq2, ?_, ?_, ?_, by omega, ?_, ?_⟩
        · refine ⟨c0, size + 1, S0, Finset.Icc (size + 1) (size + 1 + m), hnd2,
            by omega, rfl, ?_, ?_, ?_, ?_⟩
          · rw [Finset.disjoint_left]
            intro j hj hj1
            have := hS0le j hj
            simp only [Finset.mem_Icc] at hj1
            omega
          · intro j hj
            rcases Finset.mem_union.1 hj with hj' | hj'
            · exact hlt j (Finset.mem_union_left _ hj')
            · simp only [Finset.mem_Icc] at hj'
              omega
          · by_cases hc0 : c0 = 0
            · rw [if_pos hc0]
              rw [if_pos hc0] at h0
              refine ⟨h0.1, fun i hi => ?_⟩
              show (if i = id % 2 ^ (m + 1) then v else f i) = 0
              rw [hmod1, if_neg (by omega)]
              exact h0.2 i hi
            · rw [if_neg hc0]
              rw [if_neg hc0] at h0
              have hp : TrieRepr mem2 (size + 1 + m) m c0 (fun i => f i) S0 := by
                refine TrieRepr_mono mem mem2 size (size + 1 + m) m c0 _ S0 h0
                  (fun j hj => ?_) (by omega)
                have hjI : j ∉ Finset.Icc (size + 1) (size + 1 + m) := by
                  simp only [Finset.mem_Icc, not_and, not_le]
                  have := hS0le j hj
                  omega
                rw [hframe2 j hjI]
                exact setHalfMem_other mem nd _ (size + 1) j
                  (by have := hlt j (Finset.mem_union_left _ hj); omega)
              refine TrieRepr_congr_f _ _ _ _ _ _ _ hp (fun i hi => ?_)
              show (if i = id % 2 ^ (m + 1) then v else f i) = f i
              rw [hmod1, if_neg (by omega)]
          · rw [if_neg (by omega : ¬size + 1 = 0)]
            refine TrieRepr_congr_f _ _ _ _ _ _ _ hrepr2 (fun i hi => ?_)
            show (if 2 ^ m + i = id % 2 ^ (m + 1) then v else f (2 ^ m + i))
                = (if i = id % 2 ^ m then v else 0)
            rw [hmod1]
            by_cases hi' : i = id % 2 ^ m
            · rw [if_pos (by omega), if_pos hi']
            · rw [if_neg (by omega), if_neg hi']
              exact hf1 i hi
        · subst hS
          intro j hj
          rcases Finset.mem_insert.1 hj with rfl | hj'
          · exact Finset.mem_insert_self j _
          · rcases Finset.mem_union.1 hj' with hj0 | hj1
            · exact Finset.mem_insert_of_mem
                (Finset.mem_union_left _ hj0)
            · rw [hS1e] at hj1
              exact absurd hj1 (Finset.not_mem_empty j)
        · intro j hj
          rcases Finset.mem_insert.1 hj with rfl | hj'
          · exact Or.inl (by rw [hS]; exact Finset.mem_insert_self j _)
          · rcases Finset.mem_union.1 hj' with hj0 | hjI
            · exact Or.inl (by
                rw [hS]
                exact Finset.mem_insert_of_mem (Finset.mem_union_left _ hj0))
            · simp only [Finset.mem_Icc] at hjI
              exact Or.inr ⟨by omega, by omega⟩
        · intro j hj
          have hjI : j ∉ Finset.Icc (size + 1) (size + 1 + m) := by
            simp only [Finset.mem_Icc, not_and, not_le]
            omega
          rw [hframe2 j hjI, setHalfMem_other mem nd _ (size + 1) j (by omega)]
          exact hzb j (by omega)
        · intro j hj
          have hjn : j ≠ nd := fun h' => hj (by rw [h']; exact Finset.mem_insert_self _ _)
          have hjI : j ∉ Finset.Icc (size + 1) (size + 1 + m) := fun h' =>
            hj (Finset.mem_insert_of_mem (Finset.mem_union_right _ h'))
          rw [hframe2 j hjI]
          exact setHalfMem_other mem nd _ (size + 1) j hjn
      · -- existing child : recurse through it
        rw [if_neg hc1] at h1
        have hstep := setCountAux_step_existing id v m mem size nd
          (by rw [hcur]; exact hc1)
        rw [hcur] at hstep
        obtain ⟨mem', size', S1', heq, hrepr1, hsub1, hchar1, hsz, hzb', hframe1⟩ :=
          ih mem size c1 _ S1 h1 hzb
        have hndS1' : nd ∉ S1' := by
          intro hmem'
          rcases hchar1 nd hmem' with h' | h'
          · have := hlt nd (Finset.mem_union_right _ h')
            omega
          · omega
        have hmemnd : mem' nd = mem nd := hframe1 nd hndS1'
        have hS0mem : ∀ j ∈ S0, mem' j = mem j := by
          intro j hj
          refine hframe1 j (fun hj' => ?_)
          rcases hchar1 j hj' with h' | h'
          · exact Finset.disjoint_left.1 hdisj hj h'
          · have := hS0le j hj
            omega
        refine ⟨mem', size', insert nd (S0 ∪ S1'), hstep.trans heq, ?_, ?_, ?_, hsz,
          hzb', ?_⟩
        · refine ⟨c0, c1, S0, S1', by rw [hmemnd, hw], by omega, rfl, ?_, ?_, ?_, ?_⟩
          · rw [Finset.disjoint_left]
            intro j hj hj1
            rcases hchar1 j hj1 with h' | h'
            · exact Finset.disjoint_left.1 hdisj hj h'
            · have := hS0le j hj
              omega
          · intro j hj
            rcases Finset.mem_union.1 hj with hj' | hj'
            · exact hlt j (Finset.mem_union_left _ hj')
            · rcases hchar1 j hj' with h' | h'
              · exact hlt j (Finset.mem_union_right _ h')
              · omega
          · by_cases hc0 : c0 = 0
            · rw [if_pos hc0]
              rw [if_pos hc0] at h0
              refine ⟨h0.1, fun i hi => ?_⟩
              show (if i = id % 2 ^ (m + 1) then v else f i) = 0
              rw [hmod1, if_neg (by omega)]
              exact h0.2 i hi
            · rw [if_neg hc0]
              rw [if_neg hc0] at h0
              have hp := TrieRepr_mono mem mem' size size' m c0 _ S0 h0 hS0mem hsz
              refine TrieRepr_congr_f _ _ _ _ _ _ _ hp (fun i hi => ?_)
              show (if i = id % 2 ^ (m + 1) then v else f i) = f i
              rw [hmod1, if_neg (by omega)]
          · rw [if_neg hc1]
            refine TrieRepr_congr_f _ _ _ _ _ _ _ hrepr1 (fun i hi => ?_)
            show (if 2 ^ m + i = id % 2 ^ (m + 1) then v else f (2 ^ m + i))
                = (if i = id % 2 ^ m then v else f (2 ^ m + i))
            rw [hmod1]
            by_cases hi' : i = id % 2 ^ m
            · rw [if_pos (by omega), if_pos hi']
            · rw [if_neg (by omega), if_neg hi']
        · subst hS
          intro j hj
          rcases Finset.mem_insert.1 hj with rfl | hj'
          · exact Finset.mem_insert_self j _
          · rcases Finset.mem_union.1 hj' with hj0 | hj1
            · exact Finset.mem_insert_of_mem (Finset.mem_union_left _ hj0)
            · exact Finset.mem_insert_of_mem (Finset.mem_union_right _ (hsub1 hj1))
        · intro j hj
          rcases Finset.mem_insert.1 hj with rfl | hj'
          · exact Or.inl (by rw [hS]; exact Finset.mem_insert_self j _)
          · rcases Finset.mem_union.1 hj' with hj0 | hj1
            · exact Or.inl (by
                rw [hS]
                exact Finset.mem_insert_of_mem (Finset.mem_union_left _ hj0))
            · rcases hchar1 j hj1 with h' | h'
              · exact Or.inl (by
                  rw [hS]
                  exact Finset.mem_insert_of_mem (Finset.mem_union_right _ h'))
              · exact Or.inr h'
        · intro j hj
          refine hframe1 j (fun hj' => hj ?_)
          exact Finset.mem_insert_of_mem (Finset.mem_union_right _ hj')

/-- Trie-level corollary of `setCountAux_spec` for a `setCount` call. -/
theorem setCount_spec (t : Trie) (n : Nat) (f : Nat → ℚ) (S : Finset ℕ)
    (h : TrieRepr t.mem t.size n 0 f S) (hzb : zeroedBeyond t.mem t.size)
    (id : Nat) (v : ℚ) :
    ∃ S', TrieRepr (setCount id t n v).mem (setCount id t n v).size n 0
        (fun i => if i = id % 2 ^ n then v else f i) S' ∧
      zeroedBeyond (setCount id t n v).mem (setCount id t n v).size ∧
      t.size ≤ (setCount id t n v).size := by
  have hsz0 : t.size ≤ (if n = 0 then t.size + 1 else t.size) := by
    by_cases hn : n = 0 <;> simp [hn]
  have h' : TrieRepr t.mem (if n = 0 then t.size + 1 else t.size) n 0 f S :=
    TrieRepr_mono t.mem t.mem t.size _ n 0 f S h (fun _ _ => rfl) hsz0
  have hzb' : zeroedBeyond t.mem (if n = 0 then t.size + 1 else t.size) := by
    intro j hj
    exact hzb j (by omega)
  obtain ⟨mem', size', S', heq, hrepr, _, _, hsz, hzb'', _⟩ :=
    setCountAux_spec id v n t.mem (if n = 0 then t.size + 1 else t.size) 0 f S h' hzb'
  have hmem : (setCount id t n v).mem = mem' := by
    simp only [setCount, heq]
  have hsize : (setCount id t n v).size = size' := by
    simp only [setCount, heq]
  rw [hmem, hsize]
  exact ⟨S', hrepr, hzb'', by omega⟩

/-- Lookups shifted by a chunk offset that is a multiple of the bag space
agree with the unshifted lookups (only the low `n` bits are consulted). -/
theorem getCountAux_add_offset (old : Nat → Word) (n startId : Nat)
    (hstart : startId % 2 ^ n = 0) (i : Nat) :
    getCountAux (i + startId) old 0 n = getCountAux i old 0 n := by
  refine getCountAux_congr_bits old n 0 (i + startId) i (fun k hk => ?_)
  have hdvd : 2 ^ n ∣ startId := Nat.dvd_of_mod_eq_zero hstart
  obtain ⟨q, hq⟩ := hdvd
  rw [hq, show (2 : Nat) ^ n * q = q * 2 ^ n by ring, bitAt_add_mul_pow _ _ _ _ hk]

/-- Invariant of the `combineTree` launch after the first `K` worker lanes:
the receiving trie stays well formed and holds the merged counts of the
processed prefix. -/
theorem combineTree_fold_invariant (n : Nat) (t : Trie) (old : Nat → Word)
    (oldSize startId : Nat) (f1 f2 : Nat → ℚ) (S1 S2 : Finset ℕ)
    (h1 : TrieRepr t.mem t.size n 0 f1 S1) (hzb : zeroedBeyond t.mem t.size)
    (h2 : TrieRepr old oldSize n 0 f2 S2)
    (hstart : startId % 2 ^ n = 0) :
    ∀ K, K ≤ 2 ^ n →
      ∃ g S', TrieRepr
          ((List.range K).foldl
            (fun acc i => combineTreeKernel n acc old startId i) t).mem
          ((List.range K).foldl
            (fun acc i => combineTreeKernel n acc old startId i) t).size
          n 0 g S' ∧
        zeroedBeyond
          ((List.range K).foldl
            (fun acc i => combineTreeKernel n acc old startId i) t).mem
          ((List.range K).foldl
            (fun acc i => combineTreeKernel n acc old startId i) t).size ∧
        ∀ i, i < 2 ^ n → g i = if i < K ∧ 0 < f2 i then f2 i else f1 i := by
  intro K
  induction K with
  | zero =>
    intro _
    refine ⟨f1, S1, by simpa using h1, by simpa using hzb, fun i hi => ?_⟩
    simp
  | succ K ihK =>
    intro hK
    obtain ⟨g, S', hrepr, hzb', hg⟩ := ihK (by omega)
    have hKlt : K < 2 ^ n := by omega
    set T := (List.range K).foldl
      (fun acc i => combineTreeKernel n acc old startId i) t with hT
    have hfold : (List.range (K + 1)).foldl
        (fun acc i => combineTreeKernel n acc old startId i) t
        = combineTreeKernel n T old startId K := by
      rw [List.range_succ, List.foldl_append]
      simp
    have hval : getCountAux (K + startId) old 0 n = f2 K := by
      rw [getCountAux_add_offset old n startId hstart K]
      exact getCountAux_of_repr old oldSize n 0 f2 S2 h2 K hKlt
    have hmodK : (K + startId) % 2 ^ n = K := by
      have hdvd : 2 ^ n ∣ startId := Nat.dvd_of_mod_eq_zero hstart
      obtain ⟨q, hq⟩ := hdvd
      rw [hq, show K + 2 ^ n * q = K + q * 2 ^ n by ring,
        Nat.add_mul_mod_self_right, Nat.mod_eq_of_lt hKlt]
    by_cases hpos : 0 < f2 K
    · obtain ⟨S'', hrepr', hzb'', _⟩ :=
        setCount_spec T n g S' hrepr hzb' (K + startId) (f2 K)
      refine ⟨fun i => if i = (K + startId) % 2 ^ n then f2 K else g i, S'', ?_, ?_, ?_⟩
      · rw [hfold]
        simpa [combineTreeKernel, hval, hpos] using hrepr'
      · rw [hfold]
        simpa [combineTreeKernel, hval, hpos] using hzb''
      · intro i hi
        rw [hmodK]
        show (if i = K then f2 K else g i) = if i < K + 1 ∧ 0 < f2 i then f2 i else f1 i
        by_cases hiK : i = K
        · subst hiK
          rw [if_pos rfl, if_pos ⟨by omega, hpos⟩]
        · rw [if_neg hiK, hg i hi]
          by_cases hiK' : i < K ∧ 0 < f2 i
          · rw [if_pos hiK', if_pos ⟨by omega, hiK'.2⟩]
          · rw [if_neg hiK', if_neg (by
              intro hcon
              exact hiK' ⟨by omega, hcon.2⟩)]
    · refine ⟨g, S', ?_, ?_, ?_⟩
      · rw [hfold]
        simpa [combineTreeKernel, hval, hpos] using hrepr
      · rw [hfold]
        simpa [combineTreeKernel, hval, hpos] using hzb'
      · intro i hi
        rw [hg i hi]
        by_cases hiK' : i < K ∧ 0 < f2 i
        · rw [if_pos hiK', if_pos ⟨by omega, hiK'.2⟩]
        · rw [if_neg hiK', if_neg (by
            intro hcon
            rcases hcon with ⟨hlt', hpos'⟩
            have : i ≠ K := fun h' => hpos (h' ▸ hpos')
            exact hiK' ⟨by omega, hpos'⟩)]

/-- C3: on every well-formed trie (sufficient node capacity is modelled by
the zero-initialised total memory), a sequential `setCount` of assignment
`id < 2 ^ n` followed by `getCount` of the same `id` returns exactly the
stored value, and any `getCount` walk that reaches a zero child index
returns `0`. -/
theorem C3_trie_roundtrip (t : Trie) (n : Nat) (f : Nat → ℚ) (S : Finset ℕ)
    (h : TrieRepr t.mem t.size n 0 f S) (hzb : zeroedBeyond t.mem t.size)
    (id : Nat) (hid : id < 2 ^ n) (v : ℚ) :
    getCount id (setCount id t n v) n = v ∧
      ∀ (mem : Nat → Word) (m nd id2 : Nat), reachesZero id2 mem nd m →
        getCountAux id2 mem nd m = 0 := by
  constructor
  · obtain ⟨S', hrepr, _, _⟩ := setCount_spec t n f S h hzb id v
    have hget := getCountAux_of_repr _ _ n 0 _ S' hrepr id hid
    rw [getCount, hget]
    simp [Nat.mod_eq_of_lt hid]
  · intro mem m nd id2 h'
    exact getCountAux_of_reachesZero id2 mem m nd h'

theorem C3_witness :
    (1 : Nat) < 2 ^ 2 ∧
      getCount 1 (setCount 1 ⟨fun _ => Word.node 0 0, 0⟩ 2 5) 2 = 5 :=
  ⟨by norm_num,
    (C3_trie_roundtrip ⟨fun _ => Word.node 0 0, 0⟩ 2 (fun _ => 0) {0}
      (TrieRepr_empty 2) (fun _ _ => rfl) 1 (by norm_num) 5).1⟩

/-- C6: combining two well-formed tries over the same bag width whose
positive-count assignment sets are disjoint yields, for every assignment,
the point-wise sum of the two counts; combining with an all-zero source
trie leaves the receiving trie unchanged. -/
theorem C6_combineTree_pointwise_sum (n : Nat) (t : Trie) (old : Nat → Word)
    (oldSize startId : Nat) (f1 f2 : Nat → ℚ) (S1 S2 : Finset ℕ)
    (h1 : TrieRepr t.mem t.size n 0 f1 S1) (hzb : zeroedBeyond t.mem t.size)
    (h2 : TrieRepr old oldSize n 0 f2 S2)
    (hpos1 : ∀ i, i < 2 ^ n → 0 ≤ f1 i) (hpos2 : ∀ i, i < 2 ^ n → 0 ≤ f2 i)
    (hdisjp : ∀ i, i < 2 ^ n → ¬(0 < f1 i ∧ 0 < f2 i))
    (hstart : startId % 2 ^ n = 0) :
    (∀ i, i < 2 ^ n → getCount i (combineTreeRun n t old startId) n = f1 i + f2 i) ∧
    ((∀ i, i < 2 ^ n → f2 i = 0) → combineTreeRun n t old startId = t) := by
  constructor
  · intro i hi
    obtain ⟨g, S', hrepr, _, hg⟩ := combineTree_fold_invariant n t old oldSize startId
      f1 f2 S1 S2 h1 hzb h2 hstart (2 ^ n) (le_refl _)
    have hget := getCountAux_of_repr _ _ n 0 _ S' hrepr i hi
    rw [getCount, combineTreeRun, hget, hg i hi]
    by_cases hf2 : 0 < f2 i
    · rw [if_pos ⟨hi, hf2⟩]
      have hf1 : f1 i = 0 := by
        have := hdisjp i hi
        have := hpos1 i hi
        by_contra hne
        exact hdisjp i hi ⟨lt_of_le_of_ne (hpos1 i hi) (Ne.symm hne), hf2⟩
      rw [hf1, zero_add]
    · rw [if_neg (by intro h'; exact hf2 h'.2)]
      have hf2' : f2 i = 0 := le_antisymm (not_lt.mp hf2) (hpos2 i hi)
      rw [hf2', add_zero]
  · intro hz2
    have hkern : ∀ (u : Trie) (i : Nat), i < 2 ^ n →
        combineTreeKernel n u old startId i = u := by
      intro u i hi
      have hval : getCountAux (i + startId) old 0 n = f2 i := by
        rw [getCountAux_add_offset old n startId hstart i]
        exact getCountAux_of_repr old oldSize n 0 f2 S2 h2 i hi
      simp [combineTreeKernel, hval, hz2 i hi]
    have hfold : ∀ (l : List Nat), (∀ i ∈ l, i < 2 ^ n) →
        l.foldl (fun acc i => combineTreeKernel n acc old startId i) t = t := by
      intro l
      induction l with
      | nil => intro _; rfl
      | cons a l ihl =>
        intro hmem
        rw [List.foldl_cons, hkern t a (hmem a (by simp))]
        exact ihl (fun i hi => hmem i (by simp [hi]))
    rw [combineTreeRun]
    exact hfold (List.range (2 ^ n)) (fun i hi => List.mem_range.mp hi)

theorem C6_witness :
    getCount 0 (combineTreeRun 1 ⟨fun _ => Word.node 0 0, 0⟩
      (fun _ => Word.node 0 0) 0) 1 = 0 + 0 :=
  (C6_combineTree_pointwise_sum 1 ⟨fun _ => Word.node 0 0, 0⟩
      (fun _ => Word.node 0 0) 0 0 (fun _ => 0) (fun _ => 0) {0} {0}
      (TrieRepr_empty 1) (fun _ _ => rfl) (TrieRepr_empty 1)
      (fun _ _ => le_refl 0) (fun _ _ => le_refl 0)
      (fun _ _ h => absurd h.1 (lt_irrefl 0)) (by norm_num)).1 0 (by norm_num)

/-! ## Clause checking (`checkBag`, `kernel.cu` 268–306)

Clause storage in the CUDA source is a flat literal array with a parallel
per-clause length array; the pair is modelled as a `List (List ℤ)`, the
`varNum + a` indexing being exactly the flattened traversal. -/

/-- Inner loop of `checkBag` over the bag variables for one literal; `b`
is the current bit position and `satC` the running flag (set to `1` before
the loop). On a match the sign of the literal is compared with bit `b` of
`id`; a satisfied match breaks out with `1`, an unsatisfied match clears
the flag and the scan continues. -/
def litEvalAux (id : Nat) (lit : ℤ) : List ℤ → Nat → Bool → Bool
  | [], _, satC => satC
  | w :: rest, b, satC =>
    if lit = w ∨ lit = -w then
      if lit < 0 then
        if ¬ Nat.testBit id b then true
        else litEvalAux id lit rest (b + 1) false
      else
        if Nat.testBit id b then true
        else litEvalAux id lit rest (b + 1) false
    else litEvalAux id lit rest (b + 1) satC

/-- Middle loop of `checkBag`: scan the clause's literals until one is
found satisfied (`satC` breaks the loop); an empty clause is unsatisfied. -/
def clauseEval (id : Nat) (vars : List ℤ) : List ℤ → Bool
  | [] => false
  | lit :: rest =>
    if litEvalAux id lit vars 0 true then true else clauseEval id vars rest

/-- Model of `__device__ int checkBag(long *clauses, long *numVarsC, long
numclauses, long id, long numV, long *variables)`. -/
def checkBag (clauses : List (List ℤ)) (id : Nat) (vars : List ℤ) : Nat :=
  match clauses with
  | [] => 1
  | c :: rest => if clauseEval id vars c then checkBag rest id vars else 0

/-! ## Child-id projection and weights (`solveIntroduce_`, `kernel.cu` 210–247)

The merge loop `while (variables[a] != edgeVariables[b]) a++;` has no
bound check; running past the end of `variables` is undefined behaviour
and is modelled by `none`. -/

/-- The unbounded forward scan for the next occurrence of `x` in `vars`
starting at position `a`; `none` models the out-of-bounds run. -/
def scanFrom (vars : List ℤ) (x : ℤ) (a : Nat) : Option Nat :=
  if h : a < vars.length then
    if vars.get ⟨a, h⟩ = x then some a else scanFrom vars x (a + 1)
  else none
termination_by vars.length - a

/-- Merge loop of `solveIntroduce_` building the child assignment id
`otherId`: for each child variable (position `b`), find its position `a`
in the current bag and copy bit `a` of `id` to bit `b`.  The loop also
stops silently when `a` runs past `numV` at a loop head. -/
def computeOtherId (vars : List ℤ) (id : Nat) :
    List ℤ → Nat → Nat → Nat → Option Nat
  | [], _, _, acc => some acc
  | x :: rest, a, b, acc =>
    if a < vars.length then
      match scanFrom vars x a with
      | none => none
      | some a1 =>
        computeOtherId vars id rest (a1 + 1) (b + 1)
          (acc ||| (bitAt id a1 <<< b))
    else some acc

/-- Weight loop of `solveIntroduce_` (`kernel.cu` 224–233): multiply the
weights of the variables of the current bag that are not matched in the
child's ordered list. `hasEdgeVars` is the `edgeVariables == 0` null test;
`eVL` is the child list (reading `edgeVariables[b]` out of bounds when the
child list is empty yields an arbitrary word, modelled by the default). -/
def introWeightAux (w : ℤ → ℚ) (id : Nat) (hasEdgeVars : Bool) (eVL : List ℤ) :
    List ℤ → Nat → Nat → ℚ → ℚ
  | [], _, _, acc => acc
  | v :: rest, a, b, acc =>
    let acc1 := if hasEdgeVars = false ∨ ¬ eVL.getD b 0 = v then
        acc * w (if 0 < bitAt id a then v * 2 else v * 2 + 1)
      else acc
    let b1 := if hasEdgeVars = true ∧ eVL.getD b 0 = v ∧ b + 1 < eVL.length then
        b + 1
      else b
    introWeightAux w id hasEdgeVars eVL rest (a + 1) b1 acc1

/-- Model of `__device__ double solveIntroduce_` in the dense-array build
(`ARRAY_TYPE`): project `id` into the child bag; multiply the weights of
unmatched variables; in range, return the child table word (a double) times
the weight; with a null child table in range return `0`; out of range
return the sentinel `-1`. -/
def solveIntroduce_ (vars : List ℤ) (edge : Option (Int → ℚ))
    (edgeVars : Option (List ℤ)) (minId maxId : Int)
    (weights : Option (ℤ → ℚ)) (id : Nat) : Option ℚ :=
  match computeOtherId vars id (edgeVars.getD []) 0 0 0 with
  | none => none
  | some otherId =>
    let weight : ℚ := match weights with
      | none => 1
      | some w => introWeightAux w id edgeVars.isSome (edgeVars.getD []) vars 0 0 1
    match edge with
    | some e =>
      if minId ≤ (otherId : Int) ∧ (otherId : Int) < maxId then
        some (e ((otherId : Int) - minId) * weight)
      else some (-1)
    | none =>
      if minId ≤ (otherId : Int) ∧ (otherId : Int) < maxId then some 0
      else some (-1)

/-! ## The join kernel (`solveJoin`, `kernel.cu` 348–426, `ARRAY_TYPE`
build with exponent bookkeeping) -/

/-- Model of CUDA `ilogb` on the rationals standing for doubles:
`⌊log₂ |q|⌋`, with `ilogb(0) = INT_MIN = -2^31` as on the device. -/
def iLogb (q : ℚ) : ℤ :=
  if q = 0 then -(2 ^ 31) else Int.log 2 |q|

/-- Mutable state a join worker lane touches: the solution slots (doubles
packed in 64-bit words, indexed from `startIDNode`), the satisfying
assignment tally `sols` and the exponent cell. -/
structure JoinState where
  solutions : Int → ℚ
  sols : Int
  exponent : Int

/-- Launch parameters of `solveJoin` (`vars` is the source's
`variables`, a name Lean reserves). -/
structure JoinParams where
  vars : List ℤ
  edge1 : Option (Int → ℚ)
  edge2 : Option (Int → ℚ)
  edgeVariables1 : Option (List ℤ)
  edgeVariables2 : Option (List ℤ)
  minId1 : Int
  maxId1 : Int
  minId2 : Int
  maxId2 : Int
  startIDNode : Int
  weights : Option (ℤ → ℚ)
  value : ℚ

/-- Count fetched from the first child (`tmp`): stays at the sentinel `-1`
when `minId1 == -1`. -/
def joinTmp1 (P : JoinParams) (id : Nat) : Option ℚ :=
  if P.minId1 = -1 then some (-1)
  else solveIntroduce_ P.vars P.edge1 P.edgeVariables1 P.minId1 P.maxId1
    P.weights id

/-- Count fetched from the second child (`tmp_`). -/
def joinTmp2 (P : JoinParams) (id : Nat) : Option ℚ :=
  if P.minId2 = -1 then some (-1)
  else solveIntroduce_ P.vars P.edge2 P.edgeVariables2 P.minId2 P.maxId2
    P.weights id

/-- Weight loop of `solveJoin` (`kernel.cu` 365–368): product over all bag
variables of the weight of the literal selected by the bit of `id`. -/
def joinWeightAux (w : ℤ → ℚ) (id : Nat) : List ℤ → Nat → ℚ → ℚ
  | [], _, acc => acc
  | v :: rest, a, acc =>
    joinWeightAux w id rest (a + 1)
      (acc * w (if 0 < bitAt id a then v * 2 else v * 2 + 1))

def joinWeight (weights : Option (ℤ → ℚ)) (vars : List ℤ) (id : Nat) : ℚ :=
  match weights with
  | none => 1
  | some w => joinWeightAux w id vars 0 1

/-- One worker lane of `solveJoin` (dense-array build, with exponent):
`none` models the undefined out-of-bounds scan inside a projection. -/
def solveJoinThread (P : JoinParams) (id : Nat) (st : JoinState) :
    Option JoinState := do
  let tmp ← joinTmp1 P id
  let tmp_ ← joinTmp2 P id
  let weight := joinWeight P.weights P.vars id
  let idx : Int := (id : Int) - P.startIDNode
  let st1 : JoinState :=
    if 0 ≤ tmp_ ∧ 0 ≤ tmp then
      { st with
        sols := if 0 < tmp_ ∧ 0 < tmp then st.sols + 1 else st.sols,
        solutions := Function.update st.solutions idx (tmp_ * tmp / P.value / weight) }
    else if 0 ≤ tmp then
      let oldVal := st.solutions idx
      { st with
        sols :=
          if oldVal < 0 then (if 0 < tmp then st.sols + 1 else st.sols)
          else if 0 < oldVal then (if tmp = 0 then st.sols - 1 else st.sols)
          else st.sols,
        solutions := Function.update st.solutions idx
          (tmp * (if oldVal < 0 then 1 else oldVal) / weight) }
    else if 0 ≤ tmp_ then
      let oldVal := st.solutions idx
      { st with
        sols :=
          if oldVal < 0 then (if 0 < tmp_ then st.sols + 1 else st.sols)
          else if 0 < oldVal then (if tmp_ = 0 then st.sols - 1 else st.sols)
          else st.sols,
        solutions := Function.update st.solutions idx
          (tmp_ * (if oldVal < 0 then 1 else oldVal) / P.value) }
    else st
  some { st1 with exponent := max st1.exponent (iLogb (st1.solutions idx)) }

/-- A join launch over the listed assignment ids, one worker lane each;
distinct lanes write distinct slots and the shared cells only through
commutative atomics, so the launch is a sequential fold. -/
def solveJoinRun (P : JoinParams) (ids : List Nat) (st : JoinState) :
    Option JoinState :=
  ids.foldlM (fun s id => solveJoinThread P id s) st

/-- The join parameters with the two children exchanged, as for the claim
that a join is symmetric in its children. -/
def swapJoinParams (P : JoinParams) : JoinParams :=
  { P with
    edge1 := P.edge2, edge2 := P.edge1,
    edgeVariables1 := P.edgeVariables2, edgeVariables2 := P.edgeVariables1,
    minId1 := P.minId2, maxId1 := P.maxId2,
    minId2 := P.minId1, maxId2 := P.maxId1 }

/-! ## The introduce-forget kernel (`solveIntroduceF` /
`solveIntroduceForget`, `kernel.cu` 458–605, dense-array build with
exponent bookkeeping) -/

/-- Leaf weight loop of `solveIntroduceF` (`kernel.cu` 468–472), the same
shape as the join weight loop. -/
def leafWeight (weights : Option (ℤ → ℚ)) (vars : List ℤ) (id : Nat) : ℚ :=
  match weights with
  | none => 1
  | some w => joinWeightAux w id vars 0 1

/-- Model of `__device__ double solveIntroduceF`: fetch the child count
(or start from the weighted `1` at a leaf); a positive count survives only
if `checkBag` accepts the assignment. -/
def solveIntroduceF (clauses : List (List ℤ)) (vars : List ℤ)
    (edge : Option (Int → ℚ)) (edgeVars : Option (List ℤ)) (minId maxId : Int)
    (weights : Option (ℤ → ℚ)) (id : Nat) : Option ℚ := do
  let tmp ← match edge with
    | some _ => solveIntroduce_ vars edge edgeVars minId maxId weights id
    | none => some (leafWeight weights vars id)
  if 0 < tmp then
    if checkBag clauses id vars = 1 then pure tmp else pure 0
  else pure 0

/-- Template-id loop of `solveIntroduceForget` (`kernel.cu` 538–543):
copy, for every introduced-bag variable also kept after the forget, the
bit of `id` at its forget position `a` to its introduce position `i`. -/
def templateIdAux (varsF : List ℤ) (id : Nat) : List ℤ → Nat → Nat → Nat → Nat
  | [], _, _, acc => acc
  | v :: rest, i, a, acc =>
    if h : a < varsF.length then
      if varsF.get ⟨a, h⟩ = v then
        templateIdAux varsF id rest (i + 1) (a + 1) (acc ||| (bitAt id a <<< i))
      else templateIdAux varsF id rest (i + 1) a acc
    else acc

/-- Extension loop of `solveIntroduceForget` (`kernel.cu` 547–554): build
the child id of the `i`-th extension by filling the bits of the variables
absent from the forget list with the bits of `i`. -/
def extensionIdAux (varsF : List ℤ) (i : Nat) : List ℤ → Nat → Nat → Nat → Nat
  | [], _, _, acc => acc
  | v :: rest, a, b, acc =>
    if b ≥ varsF.length ∨ ¬ varsF.getD b 0 = v then
      extensionIdAux varsF i rest (a + 1) b (acc ||| (bitAt i (a - b) <<< a))
    else extensionIdAux varsF i rest (a + 1) (b + 1) acc

/-- Launch parameters of `solveIntroduceForget`. -/
structure IFParams where
  varsF : List ℤ
  solsE : Option (Int → ℚ)
  varsE : Option (List ℤ)
  combinations : Nat
  minIdE : Int
  maxIdE : Int
  startIDF : Int
  varsI : List ℤ
  clauses : List (List ℤ)
  weights : Option (ℤ → ℚ)
  value : ℚ

/-- Accumulated contribution `tmp` of one target assignment: the sum over
all extensions of the introduced variables (or a single call when nothing
is forgotten). -/
def ifTmp (P : IFParams) (id : Nat) : Option ℚ :=
  if P.varsI.length ≠ P.varsF.length then
    (List.range P.combinations).foldlM
      (fun acc i => do
        let c ← solveIntroduceF P.clauses P.varsI P.solsE P.varsE P.minIdE
          P.maxIdE P.weights
          (extensionIdAux P.varsF i P.varsI 0 0
            (templateIdAux P.varsF id P.varsI 0 0 0))
        pure (acc + c))
      (0 : ℚ)
  else
    solveIntroduceF P.clauses P.varsI P.solsE P.varsE P.minIdE P.maxIdE
      P.weights id

/-- Mutable state of an introduce-forget worker lane (dense-array build). -/
structure IFState where
  solsF : Int → ℚ
  sols : Int
  exponent : Int

/-- One worker lane of `solveIntroduceForget` (dense-array build with
exponent): a positive accumulated `tmp` is folded onto the previously
stored slot value as `tmp / value + last`, tallies one satisfying
assignment, and pushes `ilogb` of the written value into the exponent
cell; otherwise the lane leaves all state untouched. -/
def solveIntroduceForgetThread (P : IFParams) (id : Nat) (st : IFState) :
    Option IFState := do
  let tmp ← ifTmp P id
  if 0 < tmp then
    let idx : Int := (id : Int) - P.startIDF
    let last := st.solsF idx
    pure { solsF := Function.update st.solsF idx (tmp / P.value + last),
           sols := st.sols + 1,
           exponent := max st.exponent (iLogb (tmp / P.value + last)) }
  else pure st

/-- C2: a join worker lane whose two child lookups both return a
non-negative count writes `tmp_ * tmp / value / weight` into its slot and
tallies one satisfying assignment exactly when both counts are positive. -/
theorem C2_join_both_in_range (P : JoinParams) (id : Nat) (st : JoinState)
    (tmp tmp_ : ℚ) (h1 : joinTmp1 P id = some tmp) (h2 : joinTmp2 P id = some tmp_)
    (hp1 : 0 ≤ tmp) (hp2 : 0 ≤ tmp_) :
    ∃ st', solveJoinThread P id st = some st' ∧
      st'.solutions ((id : Int) - P.startIDNode)
        = tmp_ * tmp / P.value / joinWeight P.weights P.vars id ∧
      st'.sols = (if 0 < tmp_ ∧ 0 < tmp then st.sols + 1 else st.sols) := by
  simp only [solveJoinThread, h1, h2, Option.bind_eq_bind, Option.some_bind]
  rw [if_pos ⟨hp2, hp1⟩]
  exact ⟨_, rfl, by simp, rfl⟩

/-- Concrete join parameters with both children in range (single variable
`1`, both child tables holding count `3`, exponent correction `2`). -/
def joinP2 : JoinParams :=
  { vars := [1], edge1 := some (fun _ => 3), edge2 := some (fun _ => 3),
    edgeVariables1 := some [1], edgeVariables2 := some [1],
    minId1 := 0, maxId1 := 2, minId2 := 0, maxId2 := 2,
    startIDNode := 0, weights := none, value := 2 }

/-- Fresh join state: sentinel slots, zero tally, very low exponent. -/
def joinSt0 : JoinState :=
  { solutions := fun _ => -1, sols := 0, exponent := -100 }

theorem C2_witness :
    joinTmp1 joinP2 0 = some 3 ∧ joinTmp2 joinP2 0 = some 3 ∧
    ∃ st', solveJoinThread joinP2 0 joinSt0 = some st' ∧
      st'.solutions ((0 : Int) - joinP2.startIDNode)
        = 3 * 3 / joinP2.value / joinWeight joinP2.weights joinP2.vars 0 ∧
      st'.sols = (if (0 : ℚ) < 3 ∧ (0 : ℚ) < 3 then joinSt0.sols + 1 else joinSt0.sols) := by
  have h1 : joinTmp1 joinP2 0 = some 3 := by
    simp [joinTmp1, joinP2, solveIntroduce_, computeOtherId, scanFrom, bitAt_eq_div_mod]
  have h2 : joinTmp2 joinP2 0 = some 3 := by
    simp [joinTmp2, joinP2, solveIntroduce_, computeOtherId, scanFrom, bitAt_eq_div_mod]
  exact ⟨h1, h2, C2_join_both_in_range joinP2 0 joinSt0 3 3 h1 h2
    (by norm_num) (by norm_num)⟩

/-- C8: a join worker lane whose two child lookups both return a negative
sentinel leaves its solution slot (indeed the whole solution buffer)
untouched. -/
theorem C8_join_both_out_of_range (P : JoinParams) (id : Nat) (st : JoinState)
    (tmp tmp_ : ℚ) (h1 : joinTmp1 P id = some tmp) (h2 : joinTmp2 P id = some tmp_)
    (hn1 : tmp < 0) (hn2 : tmp_ < 0) :
    ∃ st', solveJoinThread P id st = some st' ∧ st'.solutions = st.solutions := by
  simp only [solveJoinThread, h1, h2, Option.bind_eq_bind, Option.some_bind]
  rw [if_neg (by intro h'; exact absurd h'.2 (not_le.mpr hn1)),
    if_neg (not_le.mpr hn1), if_neg (not_le.mpr hn2)]
  exact ⟨_, rfl, rfl⟩

/-- Concrete join parameters whose two child ranges are empty, so both
projections are out of range for every id. -/
def joinP8 : JoinParams :=
  { vars := [1], edge1 := some (fun _ => 5), edge2 := some (fun _ => 5),
    edgeVariables1 := some [1], edgeVariables2 := some [1],
    minId1 := 0, maxId1 := 0, minId2 := 0, maxId2 := 0,
    startIDNode := 0, weights := none, value := 1 }

theorem C8_witness :
    joinTmp1 joinP8 1 = some (-1) ∧ joinTmp2 joinP8 1 = some (-1) ∧
    ∃ st', solveJoinThread joinP8 1 joinSt0 = some st' ∧
      st'.solutions = joinSt0.solutions := by
  have h1 : joinTmp1 joinP8 1 = some (-1) := by
    simp [joinTmp1, joinP8, solveIntroduce_, computeOtherId, scanFrom, bitAt_eq_div_mod]
  have h2 : joinTmp2 joinP8 1 = some (-1) := by
    simp [joinTmp2, joinP8, solveIntroduce_, computeOtherId, scanFrom, bitAt_eq_div_mod]
  exact ⟨h1, h2, C8_join_both_out_of_range joinP8 1 joinSt0 (-1) (-1) h1 h2
    (by norm_num) (by norm_num)⟩

/-- Concrete join parameters where only the first child is in range, with
a non-trivial weight (`1/2` for the positive literal of variable `1`) and
a non-trivial exponent correction (`value = 4`). -/
def joinP1 : JoinParams :=
  { vars := [1], edge1 := some (fun _ => 2), edge2 := some (fun _ => 2),
    edgeVariables1 := some [1], edgeVariables2 := some [1],
    minId1 := 0, maxId1 := 2, minId2 := 0, maxId2 := 0,
    startIDNode := 0,
    weights := some (fun i => if i = 2 then 1 / 2 else 1), value := 4 }

/-- C1 fails on the code: with only the first child in range the kernel
stores `tmp * oldVal / weight` — dividing by the weight but *not* by the
exponent correction `value` — so at this input the stored word is `4`,
not the `tmp * oldVal / value / weight = 1` the claim requires. -/
theorem C1_counterexample :
    ∃ st', solveJoinThread joinP1 1 joinSt0 = some st' ∧
      st'.solutions 1 = 4 ∧
      ¬ st'.solutions 1
        = 2 * 1 / joinP1.value / joinWeight joinP1.weights joinP1.vars 1 := by
  have h1 : joinTmp1 joinP1 1 = some 2 := by
    simp [joinTmp1, joinP1, solveIntroduce_, computeOtherId, scanFrom,
      introWeightAux, bitAt_eq_div_mod]
  have h2 : joinTmp2 joinP1 1 = some (-1) := by
    simp [joinTmp2, joinP1, solveIntroduce_, computeOtherId, scanFrom,
      introWeightAux, bitAt_eq_div_mod]
  have hw : joinWeight joinP1.weights joinP1.vars 1 = 1 / 2 := by
    simp [joinWeight, joinP1, joinWeightAux, bitAt_eq_div_mod]
  simp only [solveJoinThread, h1, h2, Option.bind_eq_bind, Option.some_bind]
  rw [if_neg (by norm_num), if_pos (by norm_num : (0 : ℚ) ≤ 2)]
  refine ⟨_, rfl, ?_, ?_⟩
  · show Function.update joinSt0.solutions ((1 : Int) - joinP1.startIDNode) _ 1 = 4
    rw [hw]
    norm_num [joinSt0, joinP1, Function.update]
  · show ¬ Function.update joinSt0.solutions ((1 : Int) - joinP1.startIDNode) _ 1
      = 2 * 1 / joinP1.value / joinWeight joinP1.weights joinP1.vars 1
    rw [hw]
    norm_num [joinSt0, joinP1, Function.update]

/-- C1 amended: when exactly one child lookup is non-negative the kernel
folds it onto the stored slot value (a negative stored word counting as
factor `1`), dividing by the weight multiplier alone when the in-range
child is the first edge, and by the exponent correction `value` alone when
it is the second edge. -/
theorem C1_amended_join_single_edge (P : JoinParams) (id : Nat) (st : JoinState)
    (tmp tmp_ : ℚ) (h1 : joinTmp1 P id = some tmp) (h2 : joinTmp2 P id = some tmp_) :
    (0 ≤ tmp → tmp_ < 0 →
      ∃ st', solveJoinThread P id st = some st' ∧
        st'.solutions ((id : Int) - P.startIDNode)
          = tmp * (if st.solutions ((id : Int) - P.startIDNode) < 0 then 1
              else st.solutions ((id : Int) - P.startIDNode))
            / joinWeight P.weights P.vars id) ∧
    (tmp < 0 → 0 ≤ tmp_ →
      ∃ st', solveJoinThread P id st = some st' ∧
        st'.solutions ((id : Int) - P.startIDNode)
          = tmp_ * (if st.solutions ((id : Int) - P.startIDNode) < 0 then 1
              else st.solutions ((id : Int) - P.startIDNode))
            / P.value) := by
  constructor
  · intro hp hn
    simp only [solveJoinThread, h1, h2, Option.bind_eq_bind, Option.some_bind]
    rw [if_neg (by intro h'; exact absurd h'.1 (not_le.mpr hn)), if_pos hp]
    exact ⟨_, rfl, by simp⟩
  · intro hn hp
    simp only [solveJoinThread, h1, h2, Option.bind_eq_bind, Option.some_bind]
    rw [if_neg (by intro h'; exact absurd h'.2 (not_le.mpr hn)),
      if_neg (not_le.mpr hn), if_pos hp]
    exact ⟨_, rfl, by simp⟩

theorem C1_witness :
    joinTmp1 joinP1 1 = some 2 ∧ joinTmp2 joinP1 1 = some (-1) ∧
    ∃ st', solveJoinThread joinP1 1 joinSt0 = some st' ∧
      st'.solutions ((1 : Int) - joinP1.startIDNode)
        = 2 * (if joinSt0.solutions ((1 : Int) - joinP1.startIDNode) < 0 then 1
            else joinSt0.solutions ((1 : Int) - joinP1.startIDNode))
          / joinWeight joinP1.weights joinP1.vars 1 := by
  have h1 : joinTmp1 joinP1 1 = some 2 := by
    simp [joinTmp1, joinP1, solveIntroduce_, computeOtherId, scanFrom,
      introWeightAux, bitAt_eq_div_mod]
  have h2 : joinTmp2 joinP1 1 = some (-1) := by
    simp [joinTmp2, joinP1, solveIntroduce_, computeOtherId, scanFrom,
      introWeightAux, bitAt_eq_div_mod]
  exact ⟨h1, h2,
    (C1_amended_join_single_edge joinP1 1 joinSt0 2 (-1) h1 h2).1
      (by norm_num) (by norm_num)⟩

/-- Concrete join parameters for the child-swap claim: only the first
child in range, weight `1/2` on the touched literal, `value = 4`. -/
def joinP7 : JoinParams :=
  { vars := [1], edge1 := some (fun _ => 2), edge2 := some (fun _ => 2),
    edgeVariables1 := some [1], edgeVariables2 := some [1],
    minId1 := 0, maxId1 := 2, minId2 := 0, maxId2 := 0,
    startIDNode := 0,
    weights := some (fun i => if i = 2 then 1 / 2 else 1), value := 4 }

/-- C7 fails on the code: with only one child in range, the launch divides
by `weight` when that child is the first edge but by `value` when it is
the second, so swapping the children of this one-lane launch changes the
stored word from `4` to `1/2`. -/
theorem C7_counterexample :
    ¬ ((solveJoinRun joinP7 [1] joinSt0).map (fun s => s.solutions 1)
      = (solveJoinRun (swapJoinParams joinP7) [1] joinSt0).map
          (fun s => s.solutions 1)) := by
  have h1 : joinTmp1 joinP7 1 = some 2 := by
    simp [joinTmp1, joinP7, solveIntroduce_, computeOtherId, scanFrom,
      introWeightAux, bitAt_eq_div_mod]
  have h2 : joinTmp2 joinP7 1 = some (-1) := by
    simp [joinTmp2, joinP7, solveIntroduce_, computeOtherId, scanFrom,
      introWeightAux, bitAt_eq_div_mod]
  have h1s : joinTmp1 (swapJoinParams joinP7) 1 = some (-1) := h2
  have h2s : joinTmp2 (swapJoinParams joinP7) 1 = some 2 := h1
  have hw : joinWeight joinP7.weights joinP7.vars 1 = 1 / 2 := by
    simp [joinWeight, joinP7, joinWeightAux, bitAt_eq_div_mod]
  have hws : joinWeight (swapJoinParams joinP7).weights
      (swapJoinParams joinP7).vars 1 = 1 / 2 := hw
  have hw2 : joinWeight (some fun i => if i = 2 then (1 : ℚ) / 2 else 1)
      [1] 1 = 1 / 2 := hw
  have hLHS : (solveJoinRun joinP7 [1] joinSt0).map (fun s => s.solutions 1)
      = some 4 := by
    simp only [solveJoinRun, List.foldlM_cons, List.foldlM_nil]
    simp only [solveJoinThread, h1, h2, Option.bind_eq_bind, Option.some_bind]
    norm_num [joinSt0, joinP7, hw, hw2, Function.update]
  have hRHS : (solveJoinRun (swapJoinParams joinP7) [1] joinSt0).map
      (fun s => s.solutions 1) = some (1 / 2) := by
    simp only [solveJoinRun, List.foldlM_cons, List.foldlM_nil]
    simp only [solveJoinThread, h1s, h2s, Option.bind_eq_bind, Option.some_bind]
    norm_num [joinSt0, swapJoinParams, joinP7, hw2, Function.update]
  intro hcon
  rw [hLHS, hRHS] at hcon
  have := Option.some.inj hcon
  norm_num at this

theorem swapJoinParams_vars (P : JoinParams) : (swapJoinParams P).vars = P.vars := rfl

theorem swapJoinParams_weights (P : JoinParams) :
    (swapJoinParams P).weights = P.weights := rfl

theorem swapJoinParams_value (P : JoinParams) :
    (swapJoinParams P).value = P.value := rfl

theorem swapJoinParams_startIDNode (P : JoinParams) :
    (swapJoinParams P).startIDNode = P.startIDNode := rfl

/-- Exchanging the children commutes with one worker lane whenever the
lane sees the two lookups either both non-negative or both negative. -/
theorem solveJoinThread_swap (P : JoinParams) (id : Nat) (st : JoinState)
    (t t_ : ℚ) (h1 : joinTmp1 P id = some t) (h2 : joinTmp2 P id = some t_)
    (hc : (0 ≤ t ∧ 0 ≤ t_) ∨ (t < 0 ∧ t_ < 0)) :
    solveJoinThread (swapJoinParams P) id st = solveJoinThread P id st := by
  have h1s : joinTmp1 (swapJoinParams P) id = some t_ := h2
  have h2s : joinTmp2 (swapJoinParams P) id = some t := h1
  simp only [solveJoinThread, h1, h2, h1s, h2s, Option.bind_eq_bind,
    Option.some_bind, swapJoinParams_vars, swapJoinParams_weights,
    swapJoinParams_value, swapJoinParams_startIDNode]
  rcases hc with ⟨hp, hp_⟩ | ⟨hn, hn_⟩
  · rw [if_pos (⟨hp, hp_⟩ : (0 : ℚ) ≤ t ∧ (0 : ℚ) ≤ t_),
      if_pos (⟨hp_, hp⟩ : (0 : ℚ) ≤ t_ ∧ (0 : ℚ) ≤ t)]
    rw [mul_comm t t_]
    simp only [show (0 < t ∧ 0 < t_) ↔ (0 < t_ ∧ 0 < t) from and_comm]
  · have hnt : ¬ (0 : ℚ) ≤ t := not_le.mpr hn
    have hnt_ : ¬ (0 : ℚ) ≤ t_ := not_le.mpr hn_
    simp [hnt, hnt_]

/-- C7 amended: a join launch gives identical solution table, tally and
exponent under exchange of its two children, provided every lane of the
launch sees its two projections either both in range with non-negative
counts or both out of range; a lane with exactly one in-range child
divides by `weight` or by `value` depending on which child it is, which
the counterexample shows breaks the unrestricted claim. -/
theorem C7_amended_join_swap_balanced (P : JoinParams) (ids : List Nat)
    (st : JoinState)
    (hcond : ∀ id ∈ ids, ∃ t t_, joinTmp1 P id = some t ∧ joinTmp2 P id = some t_ ∧
      ((0 ≤ t ∧ 0 ≤ t_) ∨ (t < 0 ∧ t_ < 0))) :
    solveJoinRun (swapJoinParams P) ids st = solveJoinRun P ids st := by
  induction ids generalizing st with
  | nil => rfl
  | cons a l ih =>
    obtain ⟨t, t_, h1, h2, hc⟩ := hcond a (by simp)
    simp only [solveJoinRun, List.foldlM_cons]
    rw [solveJoinThread_swap P a st t t_ h1 h2 hc]
    cases hth : solveJoinThread P a st with
    | none => rfl
    | some st1 =>
      exact ih st1 (fun id hid => hcond id (by simp [hid]))

/-- Concrete join parameters with both children in range for the swap
witness. -/
def joinP7w : JoinParams :=
  { vars := [1], edge1 := some (fun _ => 3), edge2 := some (fun _ => 3),
    edgeVariables1 := some [1], edgeVariables2 := some [1],
    minId1 := 0, maxId1 := 2, minId2 := 0, maxId2 := 2,
    startIDNode := 0, weights := none, value := 2 }

theorem C7_witness :
    (∀ id ∈ [0], ∃ t t_, joinTmp1 joinP7w id = some t ∧
      joinTmp2 joinP7w id = some t_ ∧
      ((0 ≤ t ∧ 0 ≤ t_) ∨ (t < 0 ∧ t_ < 0))) ∧
    solveJoinRun (swapJoinParams joinP7w) [0] joinSt0
      = solveJoinRun joinP7w [0] joinSt0 := by
  have h1 : joinTmp1 joinP7w 0 = some 3 := by
    simp [joinTmp1, joinP7w, solveIntroduce_, computeOtherId, scanFrom,
      bitAt_eq_div_mod]
  have h2 : joinTmp2 joinP7w 0 = some 3 := by
    simp [joinTmp2, joinP7w, solveIntroduce_, computeOtherId, scanFrom,
      bitAt_eq_div_mod]
  have hc : ∀ id ∈ [0], ∃ t t_, joinTmp1 joinP7w id = some t ∧
      joinTmp2 joinP7w id = some t_ ∧
      ((0 ≤ t ∧ 0 ≤ t_) ∨ (t < 0 ∧ t_ < 0)) := by
    intro id hid
    simp only [List.mem_singleton] at hid
    subst hid
    exact ⟨3, 3, h1, h2, Or.inl ⟨by norm_num, by norm_num⟩⟩
  exact ⟨hc, C7_amended_join_swap_balanced joinP7w [0] joinSt0 hc⟩

/-- Concrete join parameters whose two child ranges are empty. -/
def joinP5 : JoinParams :=
  { vars := [1], edge1 := some (fun _ => 5), edge2 := some (fun _ => 5),
    edgeVariables1 := some [1], edgeVariables2 := some [1],
    minId1 := 0, maxId1 := 0, minId2 := 0, maxId2 := 0,
    startIDNode := 0, weights := none, value := 1 }

/-- Join state with sentinel slots and exponent `-5`. -/
def joinSt5 : JoinState :=
  { solutions := fun _ => -1, sols := 0, exponent := -5 }

theorem iLogb_neg_one : iLogb (-1) = 0 := by
  rw [iLogb, if_neg (by norm_num)]
  rw [show |(-1 : ℚ)| = 1 by norm_num]
  exact Int.log_one_right 2

/-- C5 fails on the code: the join kernel's atomic max runs for every
lane, even one that writes nothing; with both children out of range the
lane leaves the sentinel `-1.0` in place yet pushes `ilogb(-1.0) = 0`
into the exponent cell, so the cell ends at `0` although no positive
value was written and it started at `-5`. -/
theorem C5_counterexample :
    ∃ st', solveJoinRun joinP5 [0] joinSt5 = some st' ∧
      st'.solutions = joinSt5.solutions ∧ st'.exponent = 0 ∧
      ¬ st'.exponent = joinSt5.exponent := by
  have h1 : joinTmp1 joinP5 0 = some (-1) := by
    simp [joinTmp1, joinP5, solveIntroduce_, computeOtherId, scanFrom,
      bitAt_eq_div_mod]
  have h2 : joinTmp2 joinP5 0 = some (-1) := by
    simp [joinTmp2, joinP5, solveIntroduce_, computeOtherId, scanFrom,
      bitAt_eq_div_mod]
  simp only [solveJoinRun, List.foldlM_cons, List.foldlM_nil]
  simp only [solveJoinThread, h1, h2, Option.bind_eq_bind, Option.some_bind]
  rw [if_neg (by norm_num), if_neg (by norm_num : ¬(0 : ℚ) ≤ -1),
    if_neg (by norm_num : ¬(0 : ℚ) ≤ -1)]
  refine ⟨_, rfl, rfl, ?_, ?_⟩
  · show max joinSt5.exponent (iLogb (joinSt5.solutions ((0 : Int) - joinP5.startIDNode))) = 0
    rw [show joinSt5.solutions ((0 : Int) - joinP5.startIDNode) = -1 from rfl,
      iLogb_neg_one]
    rw [show joinSt5.exponent = -5 from rfl]
    norm_num
  · show ¬ max joinSt5.exponent (iLogb (joinSt5.solutions ((0 : Int) - joinP5.startIDNode)))
      = joinSt5.exponent
    rw [show joinSt5.solutions ((0 : Int) - joinP5.startIDNode) = -1 from rfl,
      iLogb_neg_one]
    rw [show joinSt5.exponent = -5 from rfl]
    norm_num

/-- The join lane's exponent update, as the code has it: an unconditional
atomic max with `ilogb` of the lane's final slot value. -/
theorem solveJoinThread_exponent (P : JoinParams) (id : Nat) (st st' : JoinState)
    (hj : solveJoinThread P id st = some st') :
    st'.exponent
      = max st.exponent (iLogb (st'.solutions ((id : Int) - P.startIDNode))) := by
  cases ht1 : joinTmp1 P id with
  | none =>
    rw [solveJoinThread] at hj
    simp only [ht1, Option.bind_eq_bind, Option.none_bind] at hj
    exact absurd hj (by simp)
  | some t =>
    cases ht2 : joinTmp2 P id with
    | none =>
      rw [solveJoinThread] at hj
      simp only [ht1, ht2, Option.bind_eq_bind, Option.some_bind,
        Option.none_bind] at hj
      exact absurd hj (by simp)
    | some t_ =>
      rw [solveJoinThread] at hj
      simp only [ht1, ht2, Option.bind_eq_bind, Option.some_bind,
        Option.some.injEq] at hj
      subst hj
      show max _ (iLogb _) = max st.exponent (iLogb _)
      congr 1
      split_ifs <;> rfl

/-- The introduce-forget lane's exponent update: an atomic max with
`ilogb` of the newly written value `tmp / value + last`, exactly when the
accumulated contribution `tmp` is positive. -/
theorem solveIntroduceForgetThread_exponent (Q : IFParams) (id2 : Nat)
    (stF stF' : IFState) (tmp : ℚ)
    (hf : solveIntroduceForgetThread Q id2 stF = some stF')
    (ht : ifTmp Q id2 = some tmp) :
    stF'.exponent = (if 0 < tmp then
        max stF.exponent (iLogb (tmp / Q.value + stF.solsF ((id2 : Int) - Q.startIDF)))
      else stF.exponent) := by
  rw [solveIntroduceForgetThread] at hf
  simp only [ht, Option.bind_eq_bind, Option.some_bind] at hf
  by_cases hT : 0 < tmp
  · rw [if_pos hT] at hf
    rw [if_pos hT]
    simp only [pure, Option.some.injEq] at hf
    subst hf
    rfl
  · rw [if_neg hT] at hf
    rw [if_neg hT]
    simp only [pure, Option.some.injEq] at hf
    subst hf
    rfl

/-- C5 amended: in the array build with exponent bookkeeping, a join lane
always applies the atomic max with `ilogb` of its final slot value — also
when it wrote nothing — while an introduce-forget lane applies it with
`ilogb` of the newly written `tmp / value + last` exactly when its
accumulated contribution `tmp` is positive. -/
theorem C5_amended_exponent_updates (P : JoinParams) (Q : IFParams)
    (id id2 : Nat) (st st' : JoinState) (stF stF' : IFState) (tmp : ℚ)
    (hj : solveJoinThread P id st = some st')
    (hf : solveIntroduceForgetThread Q id2 stF = some stF')
    (ht : ifTmp Q id2 = some tmp) :
    st'.exponent
      = max st.exponent (iLogb (st'.solutions ((id : Int) - P.startIDNode))) ∧
    stF'.exponent = (if 0 < tmp then
        max stF.exponent (iLogb (tmp / Q.value + stF.solsF ((id2 : Int) - Q.startIDF)))
      else stF.exponent) :=
  ⟨solveJoinThread_exponent P id st st' hj,
    solveIntroduceForgetThread_exponent Q id2 stF stF' tmp hf ht⟩

/-- Concrete introduce-forget parameters: a leaf lane with one variable,
no clauses, no weights. -/
def ifQ5 : IFParams :=
  { varsF := [1], solsE := none, varsE := none, combinations := 0,
    minIdE := 0, maxIdE := 0, startIDF := 0, varsI := [1], clauses := [],
    weights := none, value := 1 }

/-- Fresh introduce-forget state. -/
def ifSt5 : IFState := { solsF := fun _ => 0, sols := 0, exponent := -100 }

theorem C5_witness :
    ∃ st' stF', solveJoinThread joinP5 0 joinSt5 = some st' ∧
      solveIntroduceForgetThread ifQ5 0 ifSt5 = some stF' ∧
      ifTmp ifQ5 0 = some 1 ∧
      st'.exponent = max joinSt5.exponent
        (iLogb (st'.solutions ((0 : Int) - joinP5.startIDNode))) ∧
      stF'.exponent = (if (0 : ℚ) < 1 then
          max ifSt5.exponent
            (iLogb (1 / ifQ5.value + ifSt5.solsF ((0 : Int) - ifQ5.startIDF)))
        else ifSt5.exponent) := by
  have h1 : joinTmp1 joinP5 0 = some (-1) := by
    simp [joinTmp1, joinP5, solveIntroduce_, computeOtherId, scanFrom,
      bitAt_eq_div_mod]
  have h2 : joinTmp2 joinP5 0 = some (-1) := by
    simp [joinTmp2, joinP5, solveIntroduce_, computeOtherId, scanFrom,
      bitAt_eq_div_mod]
  have ht : ifTmp ifQ5 0 = some 1 := by
    simp [ifTmp, ifQ5, solveIntroduceF, leafWeight, checkBag]
  obtain ⟨st', hj⟩ : ∃ st', solveJoinThread joinP5 0 joinSt5 = some st' := by
    simp only [solveJoinThread, h1, h2, Option.bind_eq_bind, Option.some_bind]
    exact ⟨_, rfl⟩
  obtain ⟨stF', hf⟩ : ∃ stF',
      solveIntroduceForgetThread ifQ5 0 ifSt5 = some stF' := by
    rw [solveIntroduceForgetThread]
    simp only [ht, Option.bind_eq_bind, Option.some_bind]
    rw [if_pos (by norm_num : (0 : ℚ) < 1)]
    exact ⟨_, rfl⟩
  have H := C5_amended_exponent_updates joinP5 ifQ5 0 0 joinSt5 st' ifSt5 stF' 1
    hj hf ht
  exact ⟨st', stF', hj, hf, ht, H.1, H.2⟩

/-- A literal matching no bag variable leaves the running flag unchanged,
so a literal set to satisfied before the scan stays satisfied. -/
theorem litEvalAux_no_match (id : Nat) (lit : ℤ) :
    ∀ (l : List ℤ) (b : Nat) (satC : Bool), (∀ v ∈ l, ¬(lit = v ∨ lit = -v)) →
      litEvalAux id lit l b satC = satC := by
  intro l
  induction l with
  | nil => intro b satC _; rfl
  | cons v rest ih =>
    intro b satC hnm
    rw [litEvalAux, if_neg (hnm v (by simp))]
    exact ih (b + 1) satC (fun w hw => hnm w (by simp [hw]))

/-- The clause loop accepts exactly when some literal scan accepts. -/
theorem clauseEval_eq_any (id : Nat) (vars : List ℤ) :
    ∀ c, clauseEval id vars c = true ↔
      ∃ lit ∈ c, litEvalAux id lit vars 0 true = true := by
  intro c
  induction c with
  | nil => simp [clauseEval]
  | cons lit rest ih =>
    rw [clauseEval]
    by_cases hl : litEvalAux id lit vars 0 true = true
    · simp [hl]
    · rw [if_neg hl, ih]
      constructor
      · rintro ⟨w, hw, hwt⟩
        exact ⟨w, by simp [hw], hwt⟩
      · rintro ⟨w, hw, hwt⟩
        rcases List.mem_cons.1 hw with rfl | hw'
        · exact absurd hwt hl
        · exact ⟨w, hw', hwt⟩

/-- The function `checkBag` accepts exactly when every clause scan accepts. -/
theorem checkBag_eq_one_iff (id : Nat) (vars : List ℤ) :
    ∀ clauses, checkBag clauses id vars = 1 ↔
      ∀ c ∈ clauses, clauseEval id vars c = true := by
  intro clauses
  induction clauses with
  | nil => simp [checkBag]
  | cons c rest ih =>
    rw [checkBag]
    by_cases hc : clauseEval id vars c = true
    · rw [if_pos hc, ih]
      constructor
      · intro hall w hw
        rcases List.mem_cons.1 hw with rfl | hw'
        · exact hc
        · exact hall w hw'
      · intro hall w hw
        exact hall w (by simp [hw])
    · rw [if_neg hc]
      constructor
      · intro h0
        exact absurd h0 (by norm_num)
      · intro hall
        exact absurd (hall c (by simp)) hc

/-- C9: a literal whose variable is not among the bag variables is treated
as satisfied by `checkBag` — the inner scan returns `1` for it, any clause
containing it is accepted, and a clause set each of whose clauses contains
an out-of-bag literal can never make `checkBag` return `0`. -/
theorem C9_checkBag_out_of_bag (id : Nat) (lit : ℤ) (vars : List ℤ)
    (hout : ∀ v ∈ vars, ¬(lit = v ∨ lit = -v)) :
    litEvalAux id lit vars 0 true = true ∧
    (∀ c, lit ∈ c → clauseEval id vars c = true) ∧
    (∀ clauses : List (List ℤ),
      (∀ c ∈ clauses, ∃ l ∈ c, ∀ v ∈ vars, ¬(l = v ∨ l = -v)) →
      checkBag clauses id vars = 1) := by
  refine ⟨litEvalAux_no_match id lit vars 0 true hout, ?_, ?_⟩
  · intro c hc
    exact (clauseEval_eq_any id vars c).mpr
      ⟨lit, hc, litEvalAux_no_match id lit vars 0 true hout⟩
  · intro clauses hcl
    refine (checkBag_eq_one_iff id vars clauses).mpr (fun c hc => ?_)
    obtain ⟨l, hl, hlout⟩ := hcl c hc
    exact (clauseEval_eq_any id vars c).mpr
      ⟨l, hl, litEvalAux_no_match id l vars 0 true hlout⟩

theorem C9_witness :
    (∀ v ∈ [(1 : ℤ), 2], ¬((5 : ℤ) = v ∨ (5 : ℤ) = -v)) ∧
    litEvalAux 0 5 [1, 2] 0 true = true ∧
    clauseEval 0 [1, 2] [5] = true ∧
    checkBag [[5]] 0 [1, 2] = 1 := by
  have hout : ∀ v ∈ [(1 : ℤ), 2], ¬((5 : ℤ) = v ∨ (5 : ℤ) = -v) := by decide
  have H := C9_checkBag_out_of_bag 0 5 [1, 2] hout
  refine ⟨hout, H.1, H.2.1 [5] (by simp), H.2.2 [[5]] ?_⟩
  intro c hc
  simp only [List.mem_singleton] at hc
  subst hc
  exact ⟨5, by simp, fun v hv => hout v hv⟩

/-- Matching in the inner scan (`lit == variables[b] || lit == -variables[b]`)
means the scanned variable is the literal's variable, for positive bag
variables and non-zero literals. -/
theorem lit_match_iff (lit w : ℤ) (hne : lit ≠ 0) (hw : 0 < w) :
    (lit = w ∨ lit = -w) ↔ w = (if 0 < lit then lit else -lit) := by
  by_cases hl : 0 < lit
  · rw [if_pos hl]
    omega
  · rw [if_neg hl]
    omega

/-- The inner scan of `checkBag` decides exactly the claim's satisfaction
condition for a literal whose variable occurs in the (duplicate-free,
positive) bag list. -/
theorem litEvalAux_match (id : Nat) (lit : ℤ) (hne : lit ≠ 0) :
    ∀ (l : List ℤ) (b0 : Nat), (∀ v ∈ l, 0 < v) → l.Nodup →
      (if 0 < lit then lit else -lit) ∈ l →
      (litEvalAux id lit l b0 true = true ↔
        ∃ k, ∃ h : k < l.length,
          l.get ⟨k, h⟩ = (if 0 < lit then lit else -lit) ∧
          ((0 < lit ∧ Nat.testBit id (b0 + k)) ∨
            (lit < 0 ∧ ¬ Nat.testBit id (b0 + k)))) := by
  intro l
  induction l with
  | nil => intro b0 _ _ hmem; exact absurd hmem (List.not_mem_nil _)
  | cons v rest ih =>
    intro b0 hpos hnd hmem
    have hvpos : 0 < v := hpos v (by simp)
    by_cases hm : v = (if 0 < lit then lit else -lit)
    · have hmatch : lit = v ∨ lit = -v := (lit_match_iff lit v hne hvpos).mpr hm
      have hnotrest : ∀ w ∈ rest, ¬(lit = w ∨ lit = -w) := by
        intro w hw hor
        have hwpos : 0 < w := hpos w (by simp [hw])
        have : w = (if 0 < lit then lit else -lit) :=
          (lit_match_iff lit w hne hwpos).mp hor
        have : w = v := by rw [this, ← hm]
        subst this
        exact (List.nodup_cons.1 hnd).1 hw
      rw [litEvalAux, if_pos hmatch]
      by_cases hl : 0 < lit
      · rw [if_neg (by omega : ¬lit < 0)]
        by_cases ht : Nat.testBit id b0
        · rw [if_pos ht]
          constructor
          · intro _
            exact ⟨0, by simp, by simpa using hm,
              Or.inl ⟨hl, by simpa using ht⟩⟩
          · intro _
            rfl
        · rw [if_neg ht, litEvalAux_no_match id lit rest (b0 + 1) false hnotrest]
          constructor
          · intro h'
            exact absurd h' (by simp)
          · rintro ⟨k, hk, hkA, hsign⟩
            exfalso
            rcases k with _ | j
            · rcases hsign with ⟨_, ht'⟩ | ⟨hneg, _⟩
              · exact ht (by simpa using ht')
              · omega
            · have hg : rest.get ⟨j, by simpa using hk⟩
                  = (if 0 < lit then lit else -lit) := by simpa using hkA
              have hmem' : rest.get ⟨j, by simpa using hk⟩ ∈ rest :=
                List.get_mem rest _ _
              have hwpos : 0 < rest.get ⟨j, by simpa using hk⟩ :=
                hpos _ (by simp [hmem'])
              exact hnotrest _ hmem' ((lit_match_iff lit _ hne hwpos).mpr hg)
      · have hlneg : lit < 0 := by omega
        rw [if_pos hlneg]
        by_cases ht : Nat.testBit id b0
        · rw [if_neg (by simpa using ht),
            litEvalAux_no_match id lit rest (b0 + 1) false hnotrest]
          constructor
          · intro h'
            exact absurd h' (by simp)
          · rintro ⟨k, hk, hkA, hsign⟩
            exfalso
            rcases k with _ | j
            · rcases hsign with ⟨hl', _⟩ | ⟨_, ht'⟩
              · omega
              · exact ht' (by simpa using ht)
            · have hg : rest.get ⟨j, by simpa using hk⟩
                  = (if 0 < lit then lit else -lit) := by simpa using hkA
              have hmem' : rest.get ⟨j, by simpa using hk⟩ ∈ rest :=
                List.get_mem rest _ _
              have hwpos : 0 < rest.get ⟨j, by simpa using hk⟩ :=
                hpos _ (by simp [hmem'])
              exact hnotrest _ hmem' ((lit_match_iff lit _ hne hwpos).mpr hg)
        · rw [if_pos (by simpa using ht)]
          constructor
          · intro _
            exact ⟨0, by simp, by simpa using hm,
              Or.inr ⟨hlneg, by simpa using ht⟩⟩
          · intro _
            rfl
    · have hnmatch : ¬(lit = v ∨ lit = -v) := by
        intro hor
        exact hm ((lit_match_iff lit v hne hvpos).mp hor)
      rw [litEvalAux, if_neg hnmatch]
      have hmem' : (if 0 < lit then lit else -lit) ∈ rest := by
        rcases List.mem_cons.1 hmem with h' | h'
        · exact absurd h'.symm hm
        · exact h'
      rw [ih (b0 + 1) (fun w hw => hpos w (by simp [hw]))
        (List.nodup_cons.1 hnd).2 hmem']
      constructor
      · rintro ⟨j, hj, hjA, hsign⟩
        refine ⟨j + 1, by simpa using hj, by simpa using hjA, ?_⟩
        have harith : b0 + 1 + j = b0 + (j + 1) := by omega
        rw [harith] at hsign
        exact hsign
      · rintro ⟨k, hk, hkA, hsign⟩
        rcases k with _ | j
        · have hvA : v = (if 0 < lit then lit else -lit) := by simpa using hkA
          exact absurd hvA hm
        · refine ⟨j, by simpa using hk, by simpa using hkA, ?_⟩
          have harith : b0 + (j + 1) = b0 + 1 + j := by omega
          rw [harith] at hsign
          exact hsign

/-- A rejected clause check makes `solveIntroduceF` contribute `0`. -/
theorem solveIntroduceF_unsat (clauses : List (List ℤ)) (vars : List ℤ)
    (edge : Option (Int → ℚ)) (edgeVars : Option (List ℤ)) (minId maxId : Int)
    (weights : Option (ℤ → ℚ)) (id : Nat) (r : ℚ)
    (hcb : checkBag clauses id vars ≠ 1)
    (hr : solveIntroduceF clauses vars edge edgeVars minId maxId weights id
      = some r) :
    r = 0 := by
  rw [solveIntroduceF.eq_def] at hr
  cases edge with
  | none =>
    simp only [Option.bind_eq_bind, Option.some_bind] at hr
    by_cases hT : 0 < leafWeight weights vars id
    · rw [if_pos hT, if_neg hcb] at hr
      simp only [pure, Option.some.injEq] at hr
      exact hr.symm
    · rw [if_neg hT] at hr
      simp only [pure, Option.some.injEq] at hr
      exact hr.symm
  | some e =>
    rcases hs : solveIntroduce_ vars (some e) edgeVars minId maxId weights id
      with _ | tmp
    · rw [hs] at hr
      simp at hr
    · rw [hs] at hr
      simp only [Option.bind_eq_bind, Option.some_bind] at hr
      by_cases hT : 0 < tmp
      · rw [if_pos hT, if_neg hcb] at hr
        simp only [pure, Option.some.injEq] at hr
        exact hr.symm
      · rw [if_neg hT] at hr
        simp only [pure, Option.some.injEq] at hr
        exact hr.symm

/-- C4: over a bag-local clause set (every literal non-zero with its
variable in the duplicate-free positive bag list), `checkBag` returns `1`
exactly when every clause has a literal satisfied by `id` — a positive
literal with its variable's bit set, or a negative literal with its
variable's bit clear — and an extension rejected by `checkBag` contributes
`0` in the introduce-forget computation. -/
theorem C4_checkBag_characterisation (clauses : List (List ℤ)) (vars : List ℤ)
    (id : Nat) (hpos : ∀ v ∈ vars, 0 < v) (hnodup : vars.Nodup)
    (hlocal : ∀ c ∈ clauses, ∀ l ∈ c, l ≠ 0 ∧ (if 0 < l then l else -l) ∈ vars) :
    (checkBag clauses id vars = 1 ↔
      ∀ c ∈ clauses, ∃ l ∈ c, ∃ k, ∃ h : k < vars.length,
        vars.get ⟨k, h⟩ = (if 0 < l then l else -l) ∧
        ((0 < l ∧ Nat.testBit id k) ∨ (l < 0 ∧ ¬ Nat.testBit id k))) ∧
    (checkBag clauses id vars = 0 →
      ∀ (edge : Option (Int → ℚ)) (edgeVars : Option (List ℤ))
        (minId maxId : Int) (weights : Option (ℤ → ℚ)) (r : ℚ),
        solveIntroduceF clauses vars edge edgeVars minId maxId weights id
          = some r → r = 0) := by
  constructor
  · rw [checkBag_eq_one_iff]
    constructor
    · intro hall c hc
      obtain ⟨l, hl, hlt⟩ := (clauseEval_eq_any id vars c).mp (hall c hc)
      obtain ⟨hne, hmem⟩ := hlocal c hc l hl
      obtain ⟨k, hk, hkA, hsign⟩ :=
        (litEvalAux_match id l hne vars 0 hpos hnodup hmem).mp hlt
      refine ⟨l, hl, k, hk, hkA, ?_⟩
      simpa using hsign
    · intro hall c hc
      obtain ⟨l, hl, k, hk, hkA, hsign⟩ := hall c hc
      obtain ⟨hne, hmem⟩ := hlocal c hc l hl
      refine (clauseEval_eq_any id vars c).mpr ⟨l, hl, ?_⟩
      refine (litEvalAux_match id l hne vars 0 hpos hnodup hmem).mpr
        ⟨k, hk, hkA, ?_⟩
      simpa using hsign
  · intro hcb edge edgeVars minId maxId weights r hr
    exact solveIntroduceF_unsat clauses vars edge edgeVars minId maxId weights
      id r (by omega) hr

theorem C4_witness :
    (∀ v ∈ [(1 : ℤ), 2], 0 < v) ∧ ([(1 : ℤ), 2].Nodup) ∧
    (∀ c ∈ [[(1 : ℤ), -2]], ∀ l ∈ c,
      l ≠ 0 ∧ (if 0 < l then l else -l) ∈ [(1 : ℤ), 2]) ∧
    (checkBag [[1, -2]] 1 [1, 2] = 1 ↔
      ∀ c ∈ [[(1 : ℤ), -2]], ∃ l ∈ c, ∃ k, ∃ h : k < [(1 : ℤ), 2].length,
        [(1 : ℤ), 2].get ⟨k, h⟩ = (if 0 < l then l else -l) ∧
        ((0 < l ∧ Nat.testBit 1 k) ∨ (l < 0 ∧ ¬ Nat.testBit 1 k))) := by
  have h1 : ∀ v ∈ [(1 : ℤ), 2], 0 < v := by decide
  have h2 : [(1 : ℤ), 2].Nodup := by decide
  have h3 : ∀ c ∈ [[(1 : ℤ), -2]], ∀ l ∈ c,
      l ≠ 0 ∧ (if 0 < l then l else -l) ∈ [(1 : ℤ), 2] := by decide
  exact ⟨h1, h2, h3,
    (C4_checkBag_characterisation [[1, -2]] [1, 2] 1 h1 h2 h3).1⟩

theorem bitAt_eq_testBit (x k : Nat) :
    bitAt x k = if Nat.testBit x k then 1 else 0 := by
  rw [bitAt_eq_div_mod, Nat.testBit_to_div_mod]
  rcases Nat.mod_two_eq_zero_or_one (x / 2 ^ k) with h | h <;> simp [h]

/-- Bits below the shift are untouched by OR-ing in a shifted value. -/
theorem bitAt_lor_shift_low (acc y b k : Nat) (hk : k < b) :
    bitAt (acc ||| (y <<< b)) k = bitAt acc k := by
  rw [bitAt_eq_testBit, bitAt_eq_testBit, Nat.testBit_or, Nat.testBit_shiftLeft]
  have hd : decide (b ≤ k) = false := by
    simp
    omega
  rw [hd]
  simp

/-- OR-ing a one-bit value shifted to position `b` into an accumulator
with only lower bits sets exactly bit `b`. -/
theorem bitAt_lor_shift_high (acc y b : Nat) (hacc : acc < 2 ^ b) (hy : y ≤ 1) :
    bitAt (acc ||| (y <<< b)) b = y := by
  have hacc' : Nat.testBit acc b = false := by
    rw [Nat.testBit_to_div_mod, Nat.div_eq_of_lt hacc]
    simp
  rw [bitAt_eq_testBit, Nat.testBit_or, hacc', Nat.testBit_shiftLeft]
  have hbb : decide (b ≤ b) = true := by simp
  rw [hbb]
  rcases Nat.le_one_iff_eq_zero_or_eq_one.mp hy with rfl | rfl
  · simp [Nat.zero_testBit]
  · simp [Nat.testBit_zero]

/-- On a duplicate-free list, the forward scan from `a` finds exactly the
(unique) index of `x` whenever `x` occurs at or after `a`. -/
theorem scanFrom_eq_indexOf (vars : List ℤ) (hnd : vars.Nodup) (x : ℤ) :
    ∀ (n a : Nat), vars.length - a = n → x ∈ vars.drop a →
      scanFrom vars x a = some (vars.indexOf x) ∧ a ≤ vars.indexOf x := by
  intro n
  induction n with
  | zero =>
    intro a hn hmem
    rw [List.drop_eq_nil_of_le (by omega)] at hmem
    exact absurd hmem (List.not_mem_nil x)
  | succ n ih =>
    intro a hn hmem
    have ha : a < vars.length := by
      by_contra hcon
      rw [List.drop_eq_nil_of_le (by omega)] at hmem
      exact absurd hmem (List.not_mem_nil x)
    rw [scanFrom, dif_pos ha]
    by_cases hx : vars.get ⟨a, ha⟩ = x
    · rw [if_pos hx]
      have hmem' : x ∈ vars := by
        rw [← hx]
        exact List.get_mem _ _ _
      have hlt : vars.indexOf x < vars.length := List.indexOf_lt_length.mpr hmem'
      have hget : vars.get ⟨vars.indexOf x, hlt⟩ = x := List.indexOf_get hlt
      have hfin : (⟨vars.indexOf x, hlt⟩ : Fin vars.length) = ⟨a, ha⟩ :=
        hnd.get_inj_iff.mp (by rw [hget, hx])
      have hidx : vars.indexOf x = a := by
        simpa using congrArg Fin.val hfin
      exact ⟨by rw [hidx], le_of_eq hidx.symm⟩
    · rw [if_neg hx]
      have hmem' : x ∈ vars.drop (a + 1) := by
        rw [List.drop_eq_get_cons ha] at hmem
        rcases List.mem_cons.1 hmem with h' | h'
        · exact absurd h'.symm hx
        · exact h'
      obtain ⟨h1, h2⟩ := ih (a + 1) (by omega) hmem'
      exact ⟨h1, by omega⟩

/-- The merge loop of `solveIntroduce_` succeeds (no out-of-bounds scan)
and copies each shared variable's bit whenever the child list is a
subsequence of the current (duplicate-free) bag list, scanning from
position `a` with `b` bits already accumulated. -/
theorem computeOtherId_aux (vars : List ℤ) (id : Nat) (hnd : vars.Nodup) :
    ∀ (rest : List ℤ) (a b acc : Nat), rest.Sublist (vars.drop a) →
      acc < 2 ^ b →
      ∃ o, computeOtherId vars id rest a b acc = some o ∧
        (∀ k, k < b → bitAt o k = bitAt acc k) ∧
        (∀ (j : Nat) (hj : j < rest.length),
          bitAt o (b + j) = bitAt id (vars.indexOf (rest.get ⟨j, hj⟩))) := by
  intro rest
  induction rest with
  | nil =>
    intro a b acc _ _
    exact ⟨acc, rfl, fun k _ => rfl, fun j hj => absurd hj (by simp)⟩
  | cons x rest' ih =>
    intro a b acc hsub hacc
    have hxmem : x ∈ vars.drop a := hsub.subset (by simp)
    have ha : a < vars.length := by
      by_contra hcon
      rw [List.drop_eq_nil_of_le (by omega)] at hxmem
      exact absurd hxmem (List.not_mem_nil x)
    obtain ⟨hscan, hle⟩ := scanFrom_eq_indexOf vars hnd x (vars.length - a) a
      rfl hxmem
    have hxv : x ∈ vars := (List.drop_sublist a vars).subset hxmem
    have hplen : vars.indexOf x < vars.length := List.indexOf_lt_length.mpr hxv
    have hsub' : rest'.Sublist (vars.drop (vars.indexOf x + 1)) := by
      obtain ⟨r₁, r₂, hsplit, hxr₁, hsubr₂⟩ := List.cons_sublist_iff.mp hsub
      have hr2 : r₂ = vars.drop (a + r₁.length) := by
        have hdl := congrArg (List.drop r₁.length) hsplit
        rw [List.drop_left] at hdl
        rw [← hdl, List.drop_drop]
      have hp_lt : vars.indexOf x + 1 ≤ a + r₁.length := by
        obtain ⟨⟨q, hqlt⟩, hqx⟩ := List.mem_iff_get.mp hxr₁
        have hgq : vars[a + q]? = some x := by
          rw [← List.getElem?_drop, hsplit, List.getElem?_append_left hqlt,
            List.getElem?_eq_getElem hqlt]
          rw [List.get_eq_getElem] at hqx
          rw [hqx]
        have hlt2 : a + q < vars.length := by
          by_contra hcon
          rw [List.getElem?_eq_none (by omega)] at hgq
          exact absurd hgq (by simp)
        have hget2 : vars.get ⟨a + q, hlt2⟩ = x := by
          rw [List.get_eq_getElem]
          have := List.getElem?_eq_getElem hlt2
          rw [this] at hgq
          exact Option.some.inj hgq
        have hfin : (⟨vars.indexOf x, hplen⟩ : Fin vars.length) = ⟨a + q, hlt2⟩ :=
          hnd.get_inj_iff.mp (by rw [List.indexOf_get hplen, hget2])
        have : vars.indexOf x = a + q := by simpa using congrArg Fin.val hfin
        omega
      rw [hr2] at hsubr₂
      refine hsubr₂.trans ?_
      rw [show a + r₁.length
          = (vars.indexOf x + 1) + (a + r₁.length - (vars.indexOf x + 1)) by omega,
        ← List.drop_drop]
      exact List.drop_sublist _ _
    have hacc' : acc ||| (bitAt id (vars.indexOf x) <<< b) < 2 ^ (b + 1) := by
      refine Nat.or_lt_two_pow (by
        have : (2 : Nat) ^ b < 2 ^ (b + 1) := by
          rw [pow_succ]
          omega
        omega) ?_
      rw [Nat.shiftLeft_eq]
      have hb1 : bitAt id (vars.indexOf x) ≤ 1 := bitAt_le_one _ _
      have : (2 : Nat) ^ b < 2 ^ (b + 1) := by
        rw [pow_succ]
        omega
      nlinarith [Nat.pos_pow_of_pos b (show 0 < 2 by norm_num)]
    obtain ⟨o, hco, hlow, hhigh⟩ := ih (vars.indexOf x + 1) (b + 1)
      (acc ||| (bitAt id (vars.indexOf x) <<< b)) hsub' hacc'
    refine ⟨o, ?_, ?_, ?_⟩
    · rw [computeOtherId, if_pos ha, hscan]
      exact hco
    · intro k hk
      rw [hlow k (by omega)]
      exact bitAt_lor_shift_low acc _ b k hk
    · intro j hj
      rcases j with _ | j'
      · have h0 : bitAt o (b + 0) = bitAt o b := by rw [Nat.add_zero]
        rw [h0, hlow b (by omega),
          bitAt_lor_shift_high acc _ b hacc (bitAt_le_one _ _)]
        rfl
      · have harith : b + (j' + 1) = (b + 1) + j' := by omega
        rw [harith, hhigh j' (by simpa using hj)]
        rfl

/-- C10: the variable-merge loop of `solveIntroduce_` runs without
scanning `variables` past its end (its model returns `some`) whenever the
child bag's ordered variable list is a subsequence of the current bag's
sorted list, and then each shared variable's bit of `id` is copied to the
variable's position in the child ordering. -/
theorem C10_variable_merge_loop (vars eVL : List ℤ) (id : Nat)
    (hsorted : vars.Pairwise (· < ·)) (hsub : eVL.Sublist vars) :
    ∃ o, computeOtherId vars id eVL 0 0 0 = some o ∧
      ∀ (b : Nat) (hb : b < eVL.length),
        bitAt o b = bitAt id (vars.indexOf (eVL.get ⟨b, hb⟩)) := by
  have hnd : vars.Nodup := List.Pairwise.imp (fun h' => ne_of_lt h') hsorted
  obtain ⟨o, hco, _, hhigh⟩ := computeOtherId_aux vars id hnd eVL 0 0 0
    (by simpa using hsub) (by norm_num)
  exact ⟨o, hco, fun b hb => by simpa using hhigh b hb⟩

theorem C10_witness :
    ([(1 : ℤ), 2, 3].Pairwise (· < ·)) ∧ ([(1 : ℤ), 3].Sublist [1, 2, 3]) ∧
    ∃ o, computeOtherId [1, 2, 3] 5 [1, 3] 0 0 0 = some o ∧
      ∀ (b : Nat) (hb : b < ([(1 : ℤ), 3]).length),
        bitAt o b = bitAt 5 (List.indexOf ([(1 : ℤ), 3].get ⟨b, hb⟩) [1, 2, 3]) := by
  have h1 : [(1 : ℤ), 2, 3].Pairwise (· < ·) := by decide
  have h2 : [(1 : ℤ), 3].Sublist [1, 2, 3] := by decide
  exact ⟨h1, h2, C10_variable_merge_loop [1, 2, 3] [1, 3] 5 h1 h2⟩
